import Mathlib

/-!
# Context Resolution Engine — verification of the specification claims

Shallow embedding of the core of the `contexter_widget` repository
(`src/context-tool/src/context_analyzer.py`, `pattern_matcher.py`) in Lean 4.

Modelling conventions, used throughout:

* Python strings are `List Char` (`Str`).  Python's `str.lower`/`str.upper`
  and SQLite's `LIKE`/`UPPER` case folding are ASCII-only in the model
  (matching SQLite's documented behaviour; Python's Unicode case folding
  agrees with it on the ASCII texts the tool works with).
* SQLite rows are structures whose nullable columns are `Option`-typed
  (`NULL ↦ none`); `sqlite3.Row`→`dict` conversion (`_row_to_dict`) maps a
  row to an association list of `(column name, value)` pairs.
* Python runtime values stored in those dicts are `PyVal`
  (`int`/`str`/`None`/`float`, the only kinds produced by the SQLite reader;
  `REAL` is modelled by `Rat`).
* Fallible Python code is embedded in `Except PyErr`; an uncaught Python
  exception is `.error e`.
* `re.findall` for the concrete patterns of the source is embedded as a
  left-to-right scanner producing the non-overlapping matches, with the
  regexes' word-boundary and backtracking behaviour reproduced case by case.
-/

set_option maxRecDepth 10000

namespace CtxTool

/-- Python strings / SQLite text, as character lists. -/
abbrev Str := List Char

/-- Coerce a Lean string literal to the model's string type. -/
def cs (s : String) : Str := s.data

/-- ASCII uppercase letter (regex class `[A-Z]`). -/
def isUpperA (c : Char) : Bool := 'A' ≤ c && c ≤ 'Z'

/-- ASCII lowercase letter (regex class `[a-z]`). -/
def isLowerA (c : Char) : Bool := 'a' ≤ c && c ≤ 'z'

/-- ASCII digit (regex class `\d`, ASCII fragment). -/
def isDigitA (c : Char) : Bool := '0' ≤ c && c ≤ '9'

/-- ASCII letter. -/
def isAlphaA (c : Char) : Bool := isUpperA c || isLowerA c

/-- Regex word character `\w` (ASCII fragment: letters, digits, underscore). -/
def isWordChar (c : Char) : Bool := isAlphaA c || isDigitA c || c = '_'

/-- Python whitespace (`str.split()` separators, regex `\s`, ASCII fragment). -/
def isSpacePy (c : Char) : Bool :=
  c = ' ' || c = '\t' || c = '\n' || c = '\x0d' || c = '\x0b' || c = '\x0c'

/-- ASCII lower-casing of one character (Python `str.lower`, ASCII fragment). -/
def lowerA (c : Char) : Char :=
  if isUpperA c then Char.ofNat (c.toNat + 32) else c

/-- ASCII upper-casing of one character (SQLite `UPPER`). -/
def upperA (c : Char) : Char :=
  if isLowerA c then Char.ofNat (c.toNat - 32) else c

/-- Python `s.lower()` (ASCII fragment). -/
def lowerS (s : Str) : Str := s.map lowerA

/-- SQLite `UPPER(s)`. -/
def upperS (s : Str) : Str := s.map upperA

/-- `a` is a prefix of `b` (helper for the substring test). -/
def isPre : Str → Str → Bool
  | [], _ => true
  | _ :: _, [] => false
  | a :: as, b :: bs => a = b && isPre as bs

/-- Python's substring containment `a in b`. -/
def isSub : Str → Str → Bool
  | a, [] => isPre a []
  | a, b :: bs => isPre a (b :: bs) || isSub a bs

theorem length_dropWhile_le (p : Char → Bool) (l : Str) :
    (l.dropWhile p).length ≤ l.length := by
  induction l with
  | nil => simp [List.dropWhile]
  | cons c r ih =>
    simp only [List.dropWhile]
    cases p c
    · simp
    · simp only [List.length_cons]
      omega

/-- Fuelled worker for `wsSplit` (fuel bounds the number of characters
consumed; the initial call supplies the string length, which suffices since
every step consumes at least one character). -/
def wsSplitF : Nat → Str → List Str
  | 0, _ => []
  | _ + 1, [] => []
  | fuel + 1, c :: r =>
    if isSpacePy c then wsSplitF fuel r
    else (c :: r.takeWhile (fun d => !isSpacePy d)) ::
      wsSplitF fuel (r.dropWhile (fun d => !isSpacePy d))

/-- Python `s.split()`: split on runs of whitespace, dropping empty parts. -/
def wsSplit (s : Str) : List Str := wsSplitF s.length s

/-- Python `s.strip()`. -/
def pyStrip (s : Str) : Str :=
  ((s.dropWhile isSpacePy).reverse.dropWhile isSpacePy).reverse

/-- Stable insertion (descending by `key`): an element is placed before the
first existing element whose key is not larger, which matches the stable
descending sort of Python's `list.sort(key=..., reverse=True)`. -/
def insDesc (key : α → Nat) (x : α) : List α → List α
  | [] => [x]
  | y :: ys => if key y ≤ key x then x :: y :: ys else y :: insDesc key x ys

/-- Stable descending sort by a numeric key (Python `list.sort(..., reverse=True)`). -/
def sortDesc (key : α → Nat) : List α → List α
  | [] => []
  | x :: xs => insDesc key x (sortDesc key xs)

/-! ## SQLite rows and the relational store -/

/-- A row of the `contacts` table (schema in `database.py`). -/
structure ContactRow where
  id : Int
  name : Str
  email : Option Str
  role : Option Str
  context : Option Str
  last_contact : Option Str
  next_event : Option Str
  tags : Option Str
  metadata : Option Str
  deriving Repr, DecidableEq

/-- A row of the `snippets` table. -/
structure SnippetRow where
  id : Int
  text : Str
  saved_date : Option Str
  tags : Option Str
  source : Option Str
  metadata : Option Str
  deriving Repr, DecidableEq

/-- A row of the `projects` table. -/
structure ProjectRow where
  id : Int
  name : Str
  status : Option Str
  description : Option Str
  tags : Option Str
  metadata : Option Str
  deriving Repr, DecidableEq

/-- A row of the `abbreviations` table. -/
structure AbbrRow where
  id : Int
  abbr : Str
  full : Str
  definition : Option Str
  category : Option Str
  examples : Option Str
  related : Option Str
  links : Option Str
  metadata : Option Str
  deriving Repr, DecidableEq

/-- A row of the `relationships` (knowledge-graph edge) table.
`strength REAL` is modelled by `Rat`. -/
structure RelRow where
  id : Int
  from_type : Option Str
  from_id : Option Int
  to_type : Option Str
  to_id : Option Int
  relationship_type : Option Str
  strength : Option Rat
  metadata : Option Str
  deriving Repr, DecidableEq

/-- The relational store: the five tables the core reads, each in store
iteration (rowid) order.  The `embeddings` table is owned by the optional
semantic collaborator and is not part of the core's store model. -/
structure Store where
  contacts : List ContactRow
  snippets : List SnippetRow
  projects : List ProjectRow
  abbreviations : List AbbrRow
  relationships : List RelRow
  deriving Repr, DecidableEq

/-! ## The contact fuzzy matcher (`_match_person_to_contact`) -/

/-- Scoring loop of `_match_person_to_contact` (lines 159–174 of
`context_analyzer.py`): 10 for lower-cased equality, else 8 for one-way
substring containment, else one point per whitespace token of length ≥ 2
of the query whose lower-cased form occurs in the lower-cased contact name. -/
def match_score (person_name contact_name : Str) : Nat :=
  let contact_name_lower := lowerS contact_name
  let person_name_lower := lowerS person_name
  if person_name_lower = contact_name_lower then 10
  else if isSub person_name_lower contact_name_lower
      || isSub contact_name_lower person_name_lower then 8
  else
    (wsSplit person_name).foldl
      (fun score part =>
        if part.length < 2 then score
        else if isSub (lowerS part) contact_name_lower then score + 1
        else score) 0

/-- `_match_person_to_contact`: score every contact row (skipping rows with a
falsy name), keep positive scores, sort descending by score (stable). -/
def match_person_to_contact (S : Store) (person_name : Str) :
    List (ContactRow × Nat) :=
  sortDesc (fun p => p.2)
    (S.contacts.filterMap (fun contact =>
      if contact.name = [] then none
      else
        let score := match_score person_name contact.name
        if score > 0 then some (contact, score) else none))

/-! Spec-side scoring, written from the claim's words (tiers: exact
lower-cased equality 10, else substring either way 8, else the count of
query tokens of length ≥ 2 occurring in the contact name). -/

/-- Claim-side scoring function for C1. -/
def spec_score (q n : Str) : Nat :=
  if lowerS q = lowerS n then 10
  else if isSub (lowerS q) (lowerS n) || isSub (lowerS n) (lowerS q) then 8
  else ((wsSplit q).filter
    (fun t => 2 ≤ t.length && isSub (lowerS t) (lowerS n))).length

/-! ### Lemmas for C1 -/

theorem foldl_count_eq_filter_length (l : List Str) (cl : Str) (acc : Nat) :
    l.foldl
      (fun score part =>
        if part.length < 2 then score
        else if isSub (lowerS part) cl then score + 1
        else score) acc
      = acc + (l.filter (fun t => 2 ≤ t.length && isSub (lowerS t) cl)).length := by
  induction l generalizing acc with
  | nil => simp
  | cons p r ih =>
    simp only [List.foldl_cons, List.filter_cons]
    by_cases h1 : p.length < 2
    · have h2 : (decide (2 ≤ p.length) && isSub (lowerS p) cl) = false := by
        have : ¬ 2 ≤ p.length := by omega
        simp [this]
      rw [if_pos h1, h2, ih]
      simp
    · have hge : 2 ≤ p.length := by omega
      by_cases h3 : isSub (lowerS p) cl = true
      · have h4 : (decide (2 ≤ p.length) && isSub (lowerS p) cl) = true := by
          simp [hge, h3]
        rw [if_neg h1, if_pos h3, h4, ih]
        simp only [if_true, List.length_cons]
        omega
      · have h4 : (decide (2 ≤ p.length) && isSub (lowerS p) cl) = false := by
          simp [h3]
        rw [if_neg h1, if_neg h3, h4, ih]
        simp

theorem match_score_eq_spec_score (q n : Str) :
    match_score q n = spec_score q n := by
  unfold match_score spec_score
  by_cases h1 : lowerS q = lowerS n
  · simp [h1]
  · by_cases h2 : (isSub (lowerS q) (lowerS n) || isSub (lowerS n) (lowerS q)) = true
    · simp [h1, h2]
    · rw [if_neg h1, if_neg h1, if_neg (by simp [h2]), if_neg (by simp [h2]),
        foldl_count_eq_filter_length]
      simp

theorem insDesc_perm (key : α → Nat) (x : α) (l : List α) :
    List.Perm (insDesc key x l) (x :: l) := by
  induction l with
  | nil => exact List.Perm.refl _
  | cons y ys ih =>
    unfold insDesc
    by_cases h : key y ≤ key x
    · rw [if_pos h]
    · rw [if_neg h]
      exact (ih.cons y).trans (List.Perm.swap x y ys)

theorem sortDesc_perm (key : α → Nat) (l : List α) :
    List.Perm (sortDesc key l) l := by
  induction l with
  | nil => exact List.Perm.refl _
  | cons x xs ih => exact (insDesc_perm key x (sortDesc key xs)).trans (ih.cons x)

theorem insDesc_pairwise (key : α → Nat) (x : α) (l : List α)
    (h : l.Pairwise (fun a b => key b ≤ key a)) :
    (insDesc key x l).Pairwise (fun a b => key b ≤ key a) := by
  induction l with
  | nil => exact List.pairwise_singleton _ _
  | cons y ys ih =>
    rcases List.pairwise_cons.mp h with ⟨hy, hys⟩
    unfold insDesc
    by_cases hx : key y ≤ key x
    · rw [if_pos hx]
      refine List.pairwise_cons.mpr ⟨?_, h⟩
      intro b hb
      rcases List.mem_cons.mp hb with hb | hb
      · subst hb; exact hx
      · exact le_trans (hy b hb) hx
    · rw [if_neg hx]
      refine List.pairwise_cons.mpr ⟨?_, ih hys⟩
      intro b hb
      rcases List.mem_cons.mp ((insDesc_perm key x ys).mem_iff.mp hb) with hb | hb
      · subst hb; omega
      · exact hy b hb

theorem sortDesc_pairwise (key : α → Nat) (l : List α) :
    (sortDesc key l).Pairwise (fun a b => key b ≤ key a) := by
  induction l with
  | nil => exact List.Pairwise.nil
  | cons x xs ih => exact insDesc_pairwise key x (sortDesc key xs) ih

/-- C1: for every query name and every contact row with a non-empty name, the
fuzzy matcher scores 10 exactly on lower-cased equality, else 8 exactly when
one lower-cased string contains the other, else the count of whitespace
query tokens of length ≥ 2 occurring in the lower-cased contact name
(tiers evaluated in that order); zero-scoring contacts are excluded and the
result is sorted by score descending.  Stated as: the result list is a
permutation of the spec-scored positive contacts (each paired with its spec
score, rows with empty names skipped) and is pairwise sorted descending. -/
theorem C1_contact_fuzzy_scoring (S : Store) (q : Str) :
    (match_person_to_contact S q).Pairwise (fun a b => b.2 ≤ a.2) ∧
    List.Perm (match_person_to_contact S q)
      (S.contacts.filterMap (fun c =>
        if c.name ≠ [] ∧ 0 < spec_score q c.name
        then some (c, spec_score q c.name) else none)) := by
  constructor
  · exact sortDesc_pairwise _ _
  · unfold match_person_to_contact
    have hfun : ∀ c : ContactRow,
        (if c.name = [] then none
         else
           let score := match_score q c.name
           if score > 0 then some (c, score) else none)
        = (if c.name ≠ [] ∧ 0 < spec_score q c.name
           then some (c, spec_score q c.name) else none) := by
      intro c
      by_cases h : c.name = []
      · simp [h]
      · simp only [if_neg h, match_score_eq_spec_score]
        by_cases h2 : 0 < spec_score q c.name
        · simp [h, h2]
        · simp [h, h2]
    rw [show (S.contacts.filterMap (fun contact =>
        if contact.name = [] then none
        else
          let score := match_score q contact.name
          if score > 0 then some (contact, score) else none))
      = (S.contacts.filterMap (fun c =>
        if c.name ≠ [] ∧ 0 < spec_score q c.name
        then some (c, spec_score q c.name) else none)) from by
      apply List.filterMap_congr
      intro c _
      exact hfun c]
    exact sortDesc_perm _ _

/-! ## Python runtime values, dict rows, canonical entity keys -/

/-- A Python value as stored in a row dict: the SQLite reader produces
integers, text, `None` (NULL) and floats (REAL, modelled by `Rat`). -/
inductive PyVal where
  | vint : Int → PyVal
  | vstr : Str → PyVal
  | vnone : PyVal
  | vreal : Rat → PyVal
  deriving Repr, DecidableEq

/-- A Python dict with string keys, in insertion order. -/
abbrev Dict := List (Str × PyVal)

/-- The `data` payload of a match item: either a dict, or a non-dict value
represented by its `repr` string. -/
inductive PyData where
  | dict : Dict → PyData
  | nondict : Str → PyData
  deriving Repr, DecidableEq

/-- Python `d.get(k)`: first binding of `k`, `None`/absent both map to the
model's `none`. -/
def dGet (d : Dict) (k : Str) : Option PyVal :=
  (d.find? (fun kv => kv.1 = k)).map (fun kv => kv.2)

/-- Value of an ASCII digit string. -/
def digitsVal (l : Str) : Nat := l.foldl (fun a c => a * 10 + (c.toNat - 48)) 0

/-- Python integer-literal digit body: digits with single underscores
allowed only between digits. -/
def intDigitsRest : Str → Bool
  | [] => true
  | c :: r =>
    if c = '_' then
      match r with
      | [] => false
      | d :: r2 => isDigitA d && intDigitsRest r2
    else isDigitA c && intDigitsRest r

/-- Digit body check: nonempty, starts with a digit, underscores flanked. -/
def intDigitsOk : Str → Bool
  | [] => false
  | c :: r => isDigitA c && intDigitsRest r

/-- Python `int(s)` on a string: strip whitespace, optional sign, digit body. -/
def parseIntPy (s : Str) : Option Int :=
  let core : Str → Option Nat := fun r =>
    if intDigitsOk r then some (digitsVal (r.filter (fun c => c ≠ '_'))) else none
  match pyStrip s with
  | '+' :: r => (core r).map (fun n => (n : Int))
  | '-' :: r => (core r).map (fun n => -(n : Int))
  | r => (core r).map (fun n => (n : Int))

/-- Truncation toward zero (Python `int(float)`). -/
def ratTrunc (q : Rat) : Int := if 0 ≤ q then q.floor else q.ceil

/-- Python `int(x)` for the value kinds a row dict can hold; `none` models a
raised `TypeError`/`ValueError`. -/
def pyInt : PyVal → Option Int
  | .vint n => some n
  | .vreal q => some (ratTrunc q)
  | .vstr s => parseIntPy s
  | .vnone => none

/-- Code-point lexicographic order on strings (Python string `<=`). -/
def lexLe : Str → Str → Bool
  | [], _ => true
  | _ :: _, [] => false
  | a :: as, b :: bs => if a = b then lexLe as bs else decide (a < b)

/-- Stable insertion for key-sorting a dict (`json.dumps(..., sort_keys=True)`). -/
def insKey (x : Str × PyVal) : List (Str × PyVal) → List (Str × PyVal)
  | [] => [x]
  | y :: ys => if lexLe x.1 y.1 then x :: y :: ys else y :: insKey x ys

/-- Sort a dict's entries by key. -/
def sortKeys : Dict → Dict
  | [] => []
  | x :: xs => insKey x (sortKeys xs)

def hexDigit (n : Nat) : Char :=
  if n < 10 then Char.ofNat (48 + n) else Char.ofNat (97 + (n - 10))

/-- `\uXXXX` escape used by `json.dumps` (`ensure_ascii=True`). -/
def u4 (n : Nat) : Str :=
  ['\\', 'u', hexDigit (n / 4096 % 16), hexDigit (n / 256 % 16),
   hexDigit (n / 16 % 16), hexDigit (n % 16)]

/-- JSON string escaping of one character, `ensure_ascii` style. -/
def jsonEscChar (c : Char) : Str :=
  if c = '"' then ['\\', '"']
  else if c = '\\' then ['\\', '\\']
  else if c = '\n' then ['\\', 'n']
  else if c = '\t' then ['\\', 't']
  else if c = '\x0d' then ['\\', 'r']
  else if c = '\x08' then ['\\', 'b']
  else if c = '\x0c' then ['\\', 'f']
  else if c.toNat < 32 || 126 < c.toNat then u4 (c.toNat % 65536)
  else [c]

/-- Serialized JSON string literal. -/
def jsonStrLit (s : Str) : Str := '"' :: (s.map jsonEscChar).flatten ++ ['"']

def intToStr (n : Int) : Str := (toString n).data

/-- Serialization of one dict value (`REAL` values are rendered by the
model's canonical rational notation). -/
def jsonValDump : PyVal → Str
  | .vint n => intToStr n
  | .vstr s => jsonStrLit s
  | .vnone => cs "null"
  | .vreal q => (toString q).data

/-- `json.dumps(d, sort_keys=True)` for a row dict. -/
def jsonDumps (d : Dict) : Str :=
  Char.ofNat 123 ::
    (List.intercalate (cs ", ")
      ((sortKeys d).map (fun kv => jsonStrLit kv.1 ++ cs ": " ++ jsonValDump kv.2)))
    ++ [Char.ofNat 125]

/-- One component of a canonical entity key. -/
inductive KeyPart where
  | kint : Int → KeyPart
  | kstr : Str → KeyPart
  deriving Repr, DecidableEq

/-- Canonical entity key `(type, id-or-serialization)`. -/
abbrev EKey := Str × KeyPart

/-- `_entity_key` (context_analyzer.py lines 444–466): `None` for a falsy
type; else `(type, int(id))` when the dict id converts, else the sorted-key
JSON serialization, else (non-dict data) the value's `repr`. -/
def entity_key (entity_type : Option Str) (data : PyData) : Option EKey :=
  match entity_type with
  | none => none
  | some t =>
    if t = [] then none
    else
      match data with
      | .dict d =>
        match dGet d (cs "id") with
        | some v =>
          if v ≠ .vnone then
            match pyInt v with
            | some n => some (t, .kint n)
            | none => some (t, .kstr (jsonDumps d))
          else some (t, .kstr (jsonDumps d))
        | none => some (t, .kstr (jsonDumps d))
      | .nondict r => some (t, .kstr r)

/-- A match/result item: the `type`/`data` discriminated dict with the
optional extra fields the analyzer attaches. `none` models an absent key. -/
structure Item where
  type : Option Str := none
  data : Option PyData := none
  match_score : Option Nat := none
  match_reason : Option Str := none
  relationship : Option PyVal := none
  strength : Option PyVal := none
  deriving Repr, DecidableEq

/-- Key used by `_dedupe_entities`: `item.get('data', {})` defaults the
payload to an empty dict. -/
def item_key_dedupe (i : Item) : Option EKey :=
  entity_key i.type (i.data.getD (.dict []))

/-- Key used when collecting `exact_match_keys` in `analyze` (line 72):
`match.get('data')` defaults to `None`, whose `repr` is `"None"`. -/
def item_key_get (i : Item) : Option EKey :=
  entity_key i.type (i.data.getD (.nondict (cs "None")))

/-- `_dedupe_entities` inner loop with its `seen` set. -/
def dedupe_go : List (Option EKey) → List Item → List Item
  | _, [] => []
  | seen, it :: rest =>
    let key := item_key_dedupe it
    if key ∈ seen then dedupe_go seen rest
    else it :: dedupe_go (key :: seen) rest

/-- `_dedupe_entities` (lines 425–442). -/
def dedupe_entities (items : List Item) : List Item := dedupe_go [] items

/-! Spec-side definitions for C2, written from the claim's words. -/

/-- Claim-side: the id usable as an integer, when present, non-`None`, and
convertible. -/
def usable_int_id (d : Dict) : Option Int :=
  match dGet d (cs "id") with
  | some v => if v = .vnone then none else pyInt v
  | none => none

/-- Claim-side canonical key: `(type, int(id))` when usable, otherwise the
sorted-key JSON serialization for dicts, otherwise the value's repr. -/
def spec_entity_key (t : Str) (data : PyData) : EKey :=
  match data with
  | .dict d =>
    match usable_int_id d with
    | some n => (t, .kint n)
    | none => (t, .kstr (jsonDumps d))
  | .nondict r => (t, .kstr r)

/-- Claim-side deduplication: keep the first item of each canonical key,
dropping every later item with the same key, preserving order. -/
def keepFirstByKey : List Item → List Item
  | [] => []
  | it :: rest =>
    it :: keepFirstByKey
      (rest.filter (fun j => item_key_dedupe j ≠ item_key_dedupe it))
termination_by l => l.length
decreasing_by
  have := List.length_filter_le
    (fun j => item_key_dedupe j ≠ item_key_dedupe it) rest
  simp only [List.length_cons]
  omega

/-! ### Lemmas for C2 -/

theorem dedupe_go_spec (seen : List (Option EKey)) (l : List Item) :
    dedupe_go seen l
      = keepFirstByKey (l.filter (fun j => item_key_dedupe j ∉ seen)) := by
  induction l generalizing seen with
  | nil => simp [dedupe_go, keepFirstByKey]
  | cons it rest ih =>
    simp only [dedupe_go, List.filter_cons]
    by_cases h : item_key_dedupe it ∈ seen
    · rw [if_pos h]
      have hd : (decide (item_key_dedupe it ∉ seen)) = false := by simp [h]
      rw [hd]
      simp only [Bool.false_eq_true, if_false]
      exact ih seen
    · rw [if_neg h]
      have hd : (decide (item_key_dedupe it ∉ seen)) = true := by simp [h]
      rw [hd, if_pos rfl]
      simp only [keepFirstByKey]
      congr 1
      rw [ih (item_key_dedupe it :: seen), List.filter_filter]
      congr 1
      refine List.filter_congr ?_
      intro j _
      by_cases h1 : item_key_dedupe j = item_key_dedupe it
      · simp [h1, h]
      · by_cases h2 : item_key_dedupe j ∈ seen
        · simp [h1, h2]
        · simp [h1, h2]

theorem entity_key_eq_spec (t : Str) (data : PyData) (ht : t ≠ []) :
    entity_key (some t) data = some (spec_entity_key t data) := by
  match data with
  | .nondict r => simp [entity_key, spec_entity_key, ht]
  | .dict d =>
    simp only [entity_key, spec_entity_key, usable_int_id, if_neg ht]
    match hv : dGet d (cs "id") with
    | none => simp
    | some v =>
      by_cases hn : v = .vnone
      · subst hn
        simp
      · simp only [ne_eq, hn, not_false_eq_true, if_true, ite_true, if_false,
          ite_false]
        match hpi : pyInt v with
        | some n => simp [hn]
        | none => simp [hn]

/-- C2: deduplication keeps the first item per canonical key in input
order; the canonical key is `(type, int(id))` for dicts with a usable
integer id, else the sorted-key JSON serialization, else the repr of the
non-dict payload; and the key ignores all extra fields, so later items
differing only in extras (e.g. `match_score`, `relationship`) are dropped. -/
theorem C2_dedupe_canonical_keys :
    (∀ items : List Item, dedupe_entities items = keepFirstByKey items) ∧
    (∀ (t : Str) (data : PyData), t ≠ [] →
      entity_key (some t) data = some (spec_entity_key t data)) ∧
    (∀ a b : Item, a.type = b.type → a.data = b.data →
      item_key_dedupe a = item_key_dedupe b) := by
  refine ⟨?_, ?_, ?_⟩
  · intro items
    unfold dedupe_entities
    rw [dedupe_go_spec]
    congr 1
    simp
  · intro t data ht
    exact entity_key_eq_spec t data ht
  · intro a b hty hdata
    unfold item_key_dedupe
    rw [hty, hdata]

/-- Witness for C2: concrete evaluation — an id-keyed duplicate with a
different `match_score` is dropped, and the canonical key of a dict with
integer id `3` is `(type, 3)`. -/
theorem C2_dedupe_canonical_keys_witness :
    dedupe_entities
      [{ type := some (cs "contact"),
         data := some (.dict [(cs "id", .vint 3)]), match_score := some 9 },
       { type := some (cs "contact"),
         data := some (.dict [(cs "id", .vint 3)]), match_score := some 2 }]
      = [{ type := some (cs "contact"),
           data := some (.dict [(cs "id", .vint 3)]), match_score := some 9 }] ∧
    entity_key (some (cs "contact")) (.dict [(cs "id", .vint 3)])
      = some (cs "contact", .kint 3) := by
  constructor
  · rfl
  · rw [C2_dedupe_canonical_keys.2.1 (cs "contact") _ (by decide)]
    rfl

/-! ## The pattern matcher (`pattern_matcher.py`)

Each built-in regex of `PatternMatcher.PATTERNS` is embedded as a
position-wise matcher; `findAll` reproduces `re.findall`'s left-to-right
non-overlapping scan.  The matchers receive the word-character status of
the previous character so that `\b` can be decided locally; their greedy
and backtracking behaviour is reproduced per pattern (the analysis of which
backtracking branches can succeed is given at each definition). -/

/-- Is the first character of the remainder a word character (the other
side of a trailing `\b`; end of input counts as non-word). -/
def headIsWord : Str → Bool
  | [] => false
  | c :: _ => isWordChar c

/-- Word-character status of the last character of a match (the `\b`
context carried across a successful match). -/
def lastIsWord (m : Str) : Bool :=
  match m.getLast? with
  | some c => isWordChar c
  | none => false

/-- `re.findall` scan: at each position try the matcher (which receives the
previous character's word status for `\b`); on a match, emit it and resume
right after it; otherwise advance one character.  Fuel bounds the steps;
`findAll` supplies the text length, which suffices because every step
consumes at least one character. -/
def reScan (tm : Bool → Str → Option (Str × Str)) :
    Nat → Bool → Str → List Str
  | 0, _, _ => []
  | _ + 1, _, [] => []
  | fuel + 1, pw, c :: rest =>
    match tm pw (c :: rest) with
    | some (m, r) => m :: reScan tm fuel (lastIsWord m) r
    | none => reScan tm fuel (isWordChar c) rest

/-- All non-overlapping matches of a pattern, left to right. -/
def findAll (tm : Bool → Str → Option (Str × Str)) (t : Str) : List Str :=
  reScan tm t.length false t

def isJchar (c : Char) : Bool := c = 'J' || c = 'j'
def isTchar (c : Char) : Bool := c = 'T' || c = 't'

/-- `\b(JT-?\d+)\b` with IGNORECASE.  After the leading boundary: `J`/`j`,
`T`/`t`, an optional hyphen, one-or-more digits (greedy), a trailing
boundary.  Backtracking analysis: shrinking `\d+` never succeeds (a
digit-digit junction is no boundary), and when the hyphen branch fails the
hyphen-less branch puts `\d+` at the hyphen and fails too — so each branch
is decided directly.  The capture group spans the whole match. -/
def tryJira (pw : Bool) (l : Str) : Option (Str × Str) :=
  if pw then none
  else
    match l with
    | c1 :: c2 :: r =>
      if isJchar c1 && isTchar c2 then
        match r with
        | '-' :: r2 =>
          let ds := r2.takeWhile isDigitA
          let rest := r2.dropWhile isDigitA
          if ds ≠ [] && !headIsWord rest then some (c1 :: c2 :: '-' :: ds, rest)
          else none
        | _ =>
          let ds := r.takeWhile isDigitA
          let rest := r.dropWhile isDigitA
          if ds ≠ [] && !headIsWord rest then some (c1 :: c2 :: ds, rest)
          else none
      else none
    | _ => none

def lowEq (c d : Char) : Bool := lowerA c = d

/-- `https?://[^\s]+` with IGNORECASE (no boundaries): literal `http`, an
optional `s`, `://`, then a nonempty maximal run of non-whitespace.  When
the `s` branch fails on `://` the s-less branch needs `:` at the `s` and
fails as well, so the optional is decided directly. -/
def tryUrl (_ : Bool) (l : Str) : Option (Str × Str) :=
  match l with
  | a :: b :: c :: d :: r =>
    if lowEq a 'h' && lowEq b 't' && lowEq c 't' && lowEq d 'p' then
      let sr : Str × Str :=
        match r with
        | e :: r2 => if lowEq e 's' then ([e], r2) else ([], r)
        | [] => ([], [])
      match sr.2 with
      | x :: y :: z :: r3 =>
        if x = ':' && y = '/' && z = '/' then
          let body := r3.takeWhile (fun c0 => !isSpacePy c0)
          let rest := r3.dropWhile (fun c0 => !isSpacePy c0)
          if body ≠ [] then
            some (a :: b :: c :: d :: sr.1 ++ x :: y :: z :: body, rest)
          else none
        else none
      | _ => none
    else none
  | _ => none

/-- Exactly three leading digits. -/
def take3digits : Str → Option (Str × Str)
  | a :: b :: c :: r =>
    if isDigitA a && isDigitA b && isDigitA c then some ([a, b, c], r) else none
  | _ => none

/-- Exactly four leading digits. -/
def take4digits : Str → Option (Str × Str)
  | a :: b :: c :: d :: r =>
    if isDigitA a && isDigitA b && isDigitA c && isDigitA d
    then some ([a, b, c, d], r) else none
  | _ => none

/-- The two branches of `[-.]?` in the order the engine tries them:
with the separator (when present) first, then without. -/
def sepOpt (r : Str) : List (Str × Str) :=
  match r with
  | c :: r2 => if c = '-' || c = '.' then [([c], r2), ([], c :: r2)] else [([], c :: r2)]
  | [] => [([], [])]

/-- `\b\d{3}[-.]?\d{3}[-.]?\d{4}\b`: fixed-width digit groups with two
optional separators; the engine backtracks through the optional branches
(with, then without), driven by the trailing boundary. -/
def tryPhone (pw : Bool) (l : Str) : Option (Str × Str) :=
  if pw then none
  else
    match take3digits l with
    | none => none
    | some (d1, r1) =>
      (sepOpt r1).findSome? (fun s1 =>
        match take3digits s1.2 with
        | none => none
        | some (d2, r3) =>
          (sepOpt r3).findSome? (fun s2 =>
            match take4digits s2.2 with
            | none => none
            | some (d3, r5) =>
              if headIsWord r5 then none
              else some (d1 ++ s1.1 ++ d2 ++ s2.1 ++ d3, r5)))

/-- `\b\d{4}-\d{2}-\d{2}\b`: fixed shape, no backtracking. -/
def tryDate (pw : Bool) (l : Str) : Option (Str × Str) :=
  if pw then none
  else
    match l with
    | a :: b :: c :: d :: h1 :: e :: f :: h2 :: g :: k :: r =>
      if isDigitA a && isDigitA b && isDigitA c && isDigitA d && h1 = '-'
          && isDigitA e && isDigitA f && h2 = '-' && isDigitA g && isDigitA k
          && !headIsWord r
      then some ([a, b, c, d, h1, e, f, h2, g, k], r) else none
    | _ => none

/-- Character class `[A-Za-z0-9._%+-]` (local part of the email pattern). -/
def class1C (c : Char) : Bool :=
  isAlphaA c || isDigitA c || c = '.' || c = '_' || c = '%' || c = '+' || c = '-'

/-- Character class `[A-Za-z0-9.-]` (domain part). -/
def class2C (c : Char) : Bool := isAlphaA c || isDigitA c || c = '.' || c = '-'

/-- Character class `[A-Z|a-z]` (the literal class of the pattern — it
contains `|` as a plain character). -/
def tldC (c : Char) : Bool := isAlphaA c || c = '|'

/-- Split a string at its last `.`: `s = a ++ [.] ++ b` with `b` dot-free. -/
def splitLastDot : Str → Option (Str × Str)
  | [] => none
  | c :: r =>
    match splitLastDot r with
    | some (a, b) => some (c :: a, b)
    | none => if c = '.' then some ([], r) else none

/-- Search the largest cut `m` (from `hi` down to 2) of the greedy TLD run
`L` such that a word boundary follows `L.take m` (the suffix being
`L.drop m ++ afterL`).  This is the engine's backtracking of
`[A-Z|a-z]{2,}` against the trailing `\b`. -/
def tldSearch (L afterL : Str) : Nat → Option (Str × Str)
  | 0 => none
  | 1 => none
  | m + 2 =>
    let pre := L.take (m + 2)
    let post := L.drop (m + 2) ++ afterL
    if pre.length = m + 2 && (lastIsWord pre ≠ headIsWord post)
    then some (pre, post)
    else tldSearch L afterL (m + 1)

/-- Domain-side backtracking of the email pattern: the greedy
`[A-Za-z0-9.-]+` must end right before a literal `.` (the class contains
`.`, so the maximal run never ends before one — the engine always
backtracks to a dot inside the run, from the rightmost).  After the chosen
dot the TLD is matched greedily with its own boundary backtracking; on
failure the next dot to the left is tried.  Fuel bounds the recursion by
the run length. -/
def emailTailF : Nat → Str → Str → Option (Str × Str)
  | 0, _, _ => none
  | fuel + 1, R2, after =>
    match splitLastDot R2 with
    | none => none
    | some (a, b) =>
      let tail := b ++ after
      let L := tail.takeWhile tldC
      let afterL := tail.dropWhile tldC
      match (if a = [] then none else tldSearch L afterL L.length) with
      | some (pre, post) => some (a ++ '.' :: pre, post)
      | none => emailTailF fuel a ('.' :: b ++ after)

/-- `\b[A-Za-z0-9._%+-]+@[A-Za-z0-9.-]+\.[A-Z|a-z]{2,}\b`: leading
boundary (both-sides-aware, since the local-part class contains non-word
characters), greedy local part (no backtracking: `@` is outside its
class), literal `@`, then the domain/TLD backtracking of `emailTailF`. -/
def tryEmail (pw : Bool) (l : Str) : Option (Str × Str) :=
  match l with
  | c :: _ =>
    if class1C c && (pw ≠ isWordChar c) then
      let run1 := l.takeWhile class1C
      let r1 := l.dropWhile class1C
      match r1 with
      | '@' :: r2 =>
        let R2 := r2.takeWhile class2C
        let after := r2.dropWhile class2C
        match emailTailF (R2.length + 1) R2 after with
        | some (tailPart, rest) => some (run1 ++ '@' :: tailPart, rest)
        | none => none
      | _ => none
    else none
  | [] => none

/-- A registered pattern: one of the five built-ins (embedded concretely),
or a dynamically added one, modelled abstractly by whether its regex
compiles together with its findall semantics when it does. -/
inductive PRegex where
  | jira | email | url | phone | date
  | custom : Bool → (Str → List Str) → PRegex

/-- `re.findall(regex, text, re.IGNORECASE)` for one registered pattern;
`.error` models the `re.error` raised when the regex does not compile. -/
def runPat : PRegex → Str → Except Unit (List Str)
  | .jira, t => .ok (findAll tryJira t)
  | .email, t => .ok (findAll tryEmail t)
  | .url, t => .ok (findAll tryUrl t)
  | .phone, t => .ok (findAll tryPhone t)
  | .date, t => .ok (findAll tryDate t)
  | .custom true f, t => .ok (f t)
  | .custom false _, _ => .error ()

/-- The built-in `PATTERNS` dict, in insertion order. -/
def PATTERNS0 : List (Str × PRegex) :=
  [(cs "jira_ticket", .jira), (cs "email", .email), (cs "url", .url),
   (cs "phone", .phone), (cs "date", .date)]

/-- `detect` (pattern_matcher.py lines 18–33): run every registered pattern
in order (an uncompilable regex raises out of the loop) and map each
pattern name to its matches when they are nonempty. -/
def detect (pats : List (Str × PRegex)) (t : Str) :
    Except Unit (List (Str × List Str)) :=
  match pats with
  | [] => .ok []
  | (name, rgx) :: ps =>
    match runPat rgx t with
    | .error e => .error e
    | .ok ms =>
      match detect ps t with
      | .error e => .error e
      | .ok rest => .ok (if ms = [] then rest else (name, ms) :: rest)

/-- The priority list of `get_type`. -/
def priorityList : List Str :=
  [cs "jira_ticket", cs "email", cs "url", cs "phone", cs "date"]

/-- The selection loop of `get_type` over `detect`'s output. -/
def classifyFrom (det : List (Str × List Str)) : Option Str :=
  if det = [] then none
  else
    match priorityList.find? (fun p => det.any (fun kv => kv.1 = p)) with
    | some p => some p
    | none => (det.head?).map (fun kv => kv.1)

/-- `get_type` (lines 35–55). -/
def get_type (pats : List (Str × PRegex)) (t : Str) : Except Unit (Option Str) :=
  match detect pats t with
  | .error e => .error e
  | .ok det => .ok (classifyFrom det)

/-- `add_pattern` (lines 92–100): Python dict update — replace the regex in
place when the name is already registered, else append at the end. -/
def add_pattern (pats : List (Str × PRegex)) (name : Str) (rgx : PRegex) :
    List (Str × PRegex) :=
  if pats.any (fun kv => kv.1 = name)
  then pats.map (fun kv => if kv.1 = name then (name, rgx) else kv)
  else pats ++ [(name, rgx)]

/-! Spec-side classification for C4, written from the claim's words. -/

/-- Claim-side: the highest-priority pattern present in the order
jira_ticket > email > url > phone > date; else the first detected pattern
in detection order; else null. -/
def specClassify (det : List (Str × List Str)) : Option Str :=
  match priorityList.find? (fun p => det.any (fun kv => kv.1 = p)) with
  | some p => some p
  | none => (det.head?).map (fun kv => kv.1)

theorem classifyFrom_eq_spec (det : List (Str × List Str)) :
    classifyFrom det = specClassify det := by
  unfold classifyFrom specClassify
  by_cases h : det = []
  · subst h
    simp [priorityList]
  · rw [if_neg h]

/-- C4: with the built-ins registered (plus any dynamically added patterns
of other names), `get_type` selects the highest-priority built-in present
in the order jira_ticket > email > url > phone > date, falls back to the
first detected pattern in detection order only when none of the five
matched, and returns null when nothing matched.  Includes the spec's
concrete cases: `classify("JT-123 and test@x.com") = "jira_ticket"`, and
null on a text with no match. -/
theorem C4_classify_priority :
    (∀ (customs : List (Str × PRegex)) (t : Str) (det : List (Str × List Str)),
      (∀ p ∈ customs, p.1 ∉ priorityList) →
      detect (customs.foldl (fun ps nr => add_pattern ps nr.1 nr.2) PATTERNS0) t
        = .ok det →
      get_type (customs.foldl (fun ps nr => add_pattern ps nr.1 nr.2) PATTERNS0) t
        = .ok (specClassify det)) ∧
    get_type PATTERNS0 (cs "JT-123 and test@x.com") = .ok (some (cs "jira_ticket")) ∧
    get_type PATTERNS0 (cs "zzz and more zzz") = .ok none := by
  refine ⟨?_, by rfl, by rfl⟩
  intro customs t det _ hdet
  unfold get_type
  rw [hdet]
  exact congrArg Except.ok (classifyFrom_eq_spec det)

/-- Witness for C4: the general clause applied with no custom patterns to
the spec's concrete example. -/
theorem C4_classify_priority_witness :
    get_type ((([] : List (Str × PRegex)).foldl
        (fun ps nr => add_pattern ps nr.1 nr.2) PATTERNS0)
        ) (cs "JT-123 and test@x.com")
      = .ok (specClassify [(cs "jira_ticket", [cs "JT-123"]),
                           (cs "email", [cs "test@x.com"])]) :=
  C4_classify_priority.1 [] (cs "JT-123 and test@x.com")
    [(cs "jira_ticket", [cs "JT-123"]), (cs "email", [cs "test@x.com"])]
    (by intro p hp; cases hp) (by rfl)

/-- C10: every key present in `detect`'s result maps to a nonempty match
list — a registered pattern with no matches is absent from the mapping. -/
theorem C10_detect_nonempty_values
    (pats : List (Str × PRegex)) (t : Str) (res : List (Str × List Str))
    (h : detect pats t = .ok res) :
    ∀ p ∈ res, p.2 ≠ [] := by
  induction pats generalizing res with
  | nil =>
    simp only [detect, Except.ok.injEq] at h
    subst h
    intro p hp
    cases hp
  | cons nr ps ih =>
    obtain ⟨name, rgx⟩ := nr
    match hrun : runPat rgx t with
    | .error e =>
      simp only [detect, hrun] at h
      exact Except.noConfusion h
    | .ok ms =>
      match hrest : detect ps t with
      | .error e =>
        simp only [detect, hrun, hrest] at h
        exact Except.noConfusion h
      | .ok rest =>
        simp only [detect, hrun, hrest, Except.ok.injEq] at h
        by_cases hms : ms = []
        · rw [if_pos hms] at h
          subst h
          exact ih rest hrest
        · rw [if_neg hms] at h
          subst h
          intro p hp
          rcases List.mem_cons.mp hp with hp | hp
          · subst hp; exact hms
          · exact ih rest hrest p hp

/-- Witness for C10: concrete detection with one matching pattern. -/
theorem C10_detect_nonempty_values_witness :
    [cs "JT-9"] ≠ ([] : List Str) :=
  C10_detect_nonempty_values PATTERNS0 (cs "JT-9")
    [(cs "jira_ticket", [cs "JT-9"])] (by rfl)
    (cs "jira_ticket", [cs "JT-9"]) (List.mem_singleton.mpr rfl)

/-- C8 counterexample: with a dynamically registered pattern whose regex
does not compile, `detect` raises (models `re.error` propagating out of the
loop) instead of skipping the pattern — even though the other registered
patterns do have matches on the same text (second conjunct). -/
theorem C8_counterexample_detect_raises :
    detect (add_pattern PATTERNS0 (cs "custom_bad") (.custom false (fun _ => [])))
      (cs "JT-9") = .error () ∧
    detect PATTERNS0 (cs "JT-9") = .ok [(cs "jira_ticket", [cs "JT-9"])] := by
  constructor
  · rfl
  · rfl

theorem detect_error_of_bad :
    ∀ (pats : List (Str × PRegex)) (t : Str),
      (∃ p ∈ pats, ∃ f, p.2 = PRegex.custom false f) →
      detect pats t = .error ()
  | [], _, h => by rcases h with ⟨p, hp, _⟩; cases hp
  | (name, rgx) :: ps, t, h => by
    rcases h with ⟨p, hp, f, hf⟩
    rcases List.mem_cons.mp hp with hp1 | hp1
    · subst hp1
      simp only at hf
      subst hf
      rfl
    · simp only [detect]
      match hrun : runPat rgx t with
      | .error e => rfl
      | .ok ms =>
        rw [detect_error_of_bad ps t ⟨p, hp1, f, hf⟩]

/-- C8 amended: a registered pattern whose regex fails to compile makes
`detect` raise (the compile error propagates); no other pattern's matches
are returned. -/
theorem C8_detect_raises_on_bad_pattern
    (pats : List (Str × PRegex)) (t : Str)
    (h : ∃ p ∈ pats, ∃ f, p.2 = PRegex.custom false f) :
    detect pats t = .error () :=
  detect_error_of_bad pats t h

/-- Witness for C8's amended theorem: the concrete bad-pattern state. -/
theorem C8_detect_raises_on_bad_pattern_witness :
    detect (add_pattern PATTERNS0 (cs "custom_bad") (.custom false (fun _ => [])))
      (cs "test@x.com") = .error () :=
  C8_detect_raises_on_bad_pattern _ _
    ⟨(cs "custom_bad", .custom false (fun _ => [])),
      by
        have h0 : add_pattern PATTERNS0 (cs "custom_bad")
              (.custom false (fun _ => []))
            = PATTERNS0 ++ [(cs "custom_bad", .custom false (fun _ => []))] := rfl
        rw [h0]
        exact List.mem_append.mpr (Or.inr (List.mem_singleton.mpr rfl)),
      fun _ => [], rfl⟩

/-! ## SQLite LIKE, row dicts, entity fetch -/

/-- Fuelled SQLite `LIKE` matcher (`%` any run, `_` any one character,
ASCII case-insensitive).  Fuel bounds pattern+subject length; every step
shrinks one of them. -/
def likeF : Nat → Str → Str → Bool
  | 0, _, _ => false
  | _ + 1, [], s => s.isEmpty
  | fuel + 1, '%' :: p, s =>
    likeF fuel p s ||
      (match s with
       | [] => false
       | _ :: s2 => likeF fuel ('%' :: p) s2)
  | fuel + 1, '_' :: p, s =>
    (match s with
     | [] => false
     | _ :: s2 => likeF fuel p s2)
  | fuel + 1, c :: p, s =>
    (match s with
     | [] => false
     | d :: s2 => (lowerA c = lowerA d) && likeF fuel p s2)

/-- SQLite `subject LIKE pattern`. -/
def likeMatch (p s : Str) : Bool := likeF (p.length + s.length + 1) p s

/-- `column LIKE '%text%'` (the f-string embeds the raw query, so `%`/`_`
inside the query keep their wildcard meaning). -/
def likeContains (needle field : Str) : Bool :=
  likeMatch ('%' :: needle ++ ['%']) field

/-- `LIKE` on a nullable column: `NULL LIKE x` is NULL, which the WHERE
clause treats as false. -/
def optLike (needle : Str) : Option Str → Bool
  | some f => likeContains needle f
  | none => false

def optV : Option Str → PyVal
  | some s => .vstr s
  | none => .vnone

def optIntV : Option Int → PyVal
  | some n => .vint n
  | none => .vnone

def optRatV : Option Rat → PyVal
  | some q => .vreal q
  | none => .vnone

/-- `_row_to_dict` for a contacts row, in column order. -/
def contactToDict (c : ContactRow) : Dict :=
  [(cs "id", .vint c.id), (cs "name", .vstr c.name), (cs "email", optV c.email),
   (cs "role", optV c.role), (cs "context", optV c.context),
   (cs "last_contact", optV c.last_contact),
   (cs "next_event", optV c.next_event), (cs "tags", optV c.tags),
   (cs "metadata", optV c.metadata)]

/-- `_row_to_dict` for a snippets row. -/
def snippetToDict (sn : SnippetRow) : Dict :=
  [(cs "id", .vint sn.id), (cs "text", .vstr sn.text),
   (cs "saved_date", optV sn.saved_date), (cs "tags", optV sn.tags),
   (cs "source", optV sn.source), (cs "metadata", optV sn.metadata)]

/-- `_row_to_dict` for a projects row. -/
def projectToDict (p : ProjectRow) : Dict :=
  [(cs "id", .vint p.id), (cs "name", .vstr p.name), (cs "status", optV p.status),
   (cs "description", optV p.description), (cs "tags", optV p.tags),
   (cs "metadata", optV p.metadata)]

/-- `_row_to_dict` for an abbreviations row. -/
def abbrToDict (a : AbbrRow) : Dict :=
  [(cs "id", .vint a.id), (cs "abbr", .vstr a.abbr), (cs "full", .vstr a.full),
   (cs "definition", optV a.definition), (cs "category", optV a.category),
   (cs "examples", optV a.examples), (cs "related", optV a.related),
   (cs "links", optV a.links), (cs "metadata", optV a.metadata)]

/-- `_row_to_dict` for a relationships row (reachable through
`_fetch_entity("relationship", ...)`). -/
def relToDict (r : RelRow) : Dict :=
  [(cs "id", .vint r.id), (cs "from_type", optV r.from_type),
   (cs "from_id", optIntV r.from_id), (cs "to_type", optV r.to_type),
   (cs "to_id", optIntV r.to_id),
   (cs "relationship_type", optV r.relationship_type),
   (cs "strength", optRatV r.strength), (cs "metadata", optV r.metadata)]

/-- `_find_exact_matches` (lines 280–328): LIKE-substring search over
contacts (name, email), snippets (text, tags), projects (name, tags), in
that table order, each table in store iteration order. -/
def find_exact_matches (S : Store) (text : Str) : List Item :=
  (S.contacts.filter (fun c => likeContains text c.name || optLike text c.email)).map
      (fun c => { type := some (cs "contact"), data := some (.dict (contactToDict c)) })
  ++ (S.snippets.filter (fun sn => likeContains text sn.text || optLike text sn.tags)).map
      (fun sn => { type := some (cs "snippet"), data := some (.dict (snippetToDict sn)) })
  ++ (S.projects.filter (fun p => likeContains text p.name || optLike text p.tags)).map
      (fun p => { type := some (cs "project"), data := some (.dict (projectToDict p)) })

/-- `_find_abbreviation` (lines 330–350): case-insensitive equality of the
trimmed query against `abbr`; `fetchone` returns the first row in store
order. -/
def find_abbreviation (S : Store) (text : Str) : Option Dict :=
  (S.abbreviations.find? (fun a => upperS a.abbr = upperS (pyStrip text))).map
    abbrToDict

/-- `_fetch_entity` (lines 468–480): reads from the table named
`f"{entity_type}s"` (SQLite resolves table names ASCII-case-insensitively);
an unknown table raises `OperationalError`, which is caught and yields
`None`.  The `embeddings` table belongs to the semantic collaborator and is
not part of the store model; a fetch against it behaves like the empty
table (no row, hence `None`), which the fall-through also produces. -/
def fetch_entity (S : Store) (ty : Option Str) (eid : Option Int) : Option Dict :=
  match ty with
  | none => none
  | some t =>
    let tbl := lowerS (t ++ ['s'])
    if tbl = cs "contacts" then
      (S.contacts.find? (fun c => some c.id = eid)).map contactToDict
    else if tbl = cs "snippets" then
      (S.snippets.find? (fun sn => some sn.id = eid)).map snippetToDict
    else if tbl = cs "projects" then
      (S.projects.find? (fun p => some p.id = eid)).map projectToDict
    else if tbl = cs "abbreviations" then
      (S.abbreviations.find? (fun a => some a.id = eid)).map abbrToDict
    else if tbl = cs "relationships" then
      (S.relationships.find? (fun r => some r.id = eid)).map relToDict
    else none

/-! ## Graph traversal (`_get_related_items`) -/

/-- Uncaught Python exceptions, by kind. -/
inductive PyErr where
  | keyError | typeError | jsonError | reError
  deriving Repr, DecidableEq

/-- SQLite numeric conversion of a text operand compared against a numeric
column (modelled without exponent notation): a full numeric literal
converts, anything else stays text and compares unequal. -/
def sqlNum (s : Str) : Option Rat :=
  let core : Str → Option Rat := fun l =>
    let ip := l.takeWhile isDigitA
    let r := l.dropWhile isDigitA
    match r with
    | [] => if ip = [] then none else some ((digitsVal ip : Int) : Rat)
    | '.' :: fr =>
      if fr.all isDigitA && !(ip = [] && fr = []) then
        some (((digitsVal ip * 10 ^ fr.length + digitsVal fr : Int) : Rat)
          / ((10 : Rat) ^ fr.length))
      else none
    | _ => none
  match s with
  | '-' :: r => (core r).map Neg.neg
  | '+' :: r => core r
  | r => core r

/-- `from_id = ?` / `to_id = ?`: an INTEGER-affinity column compared with
the bound Python value (NULL never equal; text undergoes numeric
conversion per SQLite affinity rules). -/
def sqlEqIdParam (col : Option Int) (v : PyVal) : Bool :=
  match col, v with
  | some n, .vint m => n = m
  | some n, .vreal q => q = (n : Rat)
  | some n, .vstr s =>
    (match sqlNum s with
     | some q => q = (n : Rat)
     | none => false)
  | _, .vnone => false
  | none, _ => false

/-- `from_type = ?` / `to_type = ?` on a TEXT column. -/
def sqlEqTyParam (col : Option Str) (t : Str) : Bool :=
  match col with
  | some s => s = t
  | none => false

/-- `f"inverse_{x}"`: f-string rendering of a nullable text value. -/
def fstrOpt : Option Str → Str
  | some s => s
  | none => cs "None"

/-- The skip test `if exclude_keys and key in exclude_keys` (line 388):
short-circuit on an empty (falsy) exclude set; a `None` key is never a
member. -/
def keyExcluded (excl : List EKey) (key : Option EKey) : Bool :=
  !excl.isEmpty &&
    (match key with
     | some k => decide (k ∈ excl)
     | none => false)

/-- `_get_related_items` (lines 352–423): for each matched entity, resolve
its outgoing edges (relationship kept as-is), then its incoming edges
(relationship prefixed `inverse_`), skipping unresolvable endpoints and
excluded keys; `match['type']` / `match['data']['id']` raise on malformed
match items. -/
def get_related_items (S : Store) (matchList : List Item) (excl : List EKey) :
    Except PyErr (List Item) :=
  match matchList with
  | [] => .ok []
  | m :: rest =>
    match m.type with
    | none => .error .keyError
    | some mt =>
      match m.data with
      | none => .error .keyError
      | some (.nondict _) => .error .typeError
      | some (.dict d) =>
        match dGet d (cs "id") with
        | none => .error .keyError
        | some mid =>
          let outs := (S.relationships.filter (fun r =>
            sqlEqTyParam r.from_type mt && sqlEqIdParam r.from_id mid)).filterMap
            (fun r =>
              match fetch_entity S r.to_type r.to_id with
              | none => none
              | some ent =>
                if keyExcluded excl (entity_key r.to_type (.dict ent)) then none
                else some { type := r.to_type, data := some (.dict ent),
                            relationship := some (optV r.relationship_type),
                            strength := some (optRatV r.strength) })
          let ins := (S.relationships.filter (fun r =>
            sqlEqTyParam r.to_type mt && sqlEqIdParam r.to_id mid)).filterMap
            (fun r =>
              match fetch_entity S r.from_type r.from_id with
              | none => none
              | some ent =>
                if keyExcluded excl (entity_key r.from_type (.dict ent)) then none
                else some { type := r.from_type, data := some (.dict ent),
                            relationship := some (.vstr
                              (cs "inverse_" ++ fstrOpt r.relationship_type)),
                            strength := some (optRatV r.strength) })
          match get_related_items S rest excl with
          | .error e => .error e
          | .ok restItems => .ok (outs ++ ins ++ restItems)

/-! ## JSON (`json.loads` on metadata strings) -/

/-- A parsed JSON document.  Numbers are kept as their source lexeme (the
analyzer never computes with them, it only tests truthiness and renders). -/
inductive Json where
  | jnull
  | jbool : Bool → Json
  | jnum : Str → Json
  | jstr : Str → Json
  | jarr : List Json → Json
  | jobj : List (Str × Json) → Json
  deriving Repr

/-- JSON insignificant whitespace. -/
def jwsSkip (l : Str) : Str :=
  l.dropWhile (fun c => c = ' ' || c = '\t' || c = '\n' || c = '\x0d')

def hexVal (c : Char) : Option Nat :=
  if isDigitA c then some (c.toNat - 48)
  else if 'a' ≤ c && c ≤ 'f' then some (c.toNat - 87)
  else if 'A' ≤ c && c ≤ 'F' then some (c.toNat - 55)
  else none

def escChar : Char → Option Char
  | '"' => some '"'
  | '\\' => some '\\'
  | '/' => some '/'
  | 'b' => some '\x08'
  | 'f' => some '\x0c'
  | 'n' => some '\n'
  | 'r' => some '\x0d'
  | 't' => some '\t'
  | _ => none

/-- JSON string body (after the opening quote), with escapes; `\uXXXX`
outside the valid scalar range degrades to the null character (surrogate
pairing is not modelled). -/
def parseJStr : Nat → Str → Option (Str × Str)
  | 0, _ => none
  | _ + 1, [] => none
  | fuel + 1, c :: r =>
    if c = '"' then some ([], r)
    else if c = '\\' then
      match r with
      | [] => none
      | e :: r2 =>
        if e = 'u' then
          match r2 with
          | a :: b :: c2 :: d :: r3 =>
            match hexVal a, hexVal b, hexVal c2, hexVal d with
            | some x, some y, some z, some w =>
              (parseJStr fuel r3).map
                (fun pr => (Char.ofNat (((x * 16 + y) * 16 + z) * 16 + w) :: pr.1, pr.2))
            | _, _, _, _ => none
          | _ => none
        else
          match escChar e with
          | some ce => (parseJStr fuel r2).map (fun pr => (ce :: pr.1, pr.2))
          | none => none
    else if c.toNat < 32 then none
    else (parseJStr fuel r).map (fun pr => (c :: pr.1, pr.2))

/-- Optional JSON fraction part. -/
def parseFrac (r : Str) : Option (Str × Str) :=
  match r with
  | '.' :: r2 =>
    let ds := r2.takeWhile isDigitA
    if ds = [] then none else some ('.' :: ds, r2.dropWhile isDigitA)
  | _ => some ([], r)

/-- Optional JSON exponent part. -/
def parseExp (r : Str) : Option (Str × Str) :=
  match r with
  | c :: r2 =>
    if c = 'e' || c = 'E' then
      let sg : Str × Str :=
        match r2 with
        | s :: r3a => if s = '+' || s = '-' then ([s], r3a) else ([], r2)
        | [] => ([], r2)
      let ds := sg.2.takeWhile isDigitA
      if ds = [] then none else some (c :: sg.1 ++ ds, sg.2.dropWhile isDigitA)
    else some ([], c :: r2)
  | [] => some ([], [])

/-- JSON number lexeme: `-? (0 | [1-9][0-9]*) frac? exp?`. -/
def parseJNum (l : Str) : Option (Str × Str) :=
  let sg : Str × Str :=
    match l with
    | '-' :: r => (['-'], r)
    | _ => ([], l)
  match sg.2 with
  | [] => none
  | c :: _ =>
    if isDigitA c then
      let ip := sg.2.takeWhile isDigitA
      let r1 := sg.2.dropWhile isDigitA
      if c = '0' && ip.length > 1 then none
      else
        match parseFrac r1 with
        | none => none
        | some (fp, r2) =>
          match parseExp r2 with
          | none => none
          | some (ep, r3) => some (sg.1 ++ ip ++ fp ++ ep, r3)
    else none

/-- Parse result of the single fuelled JSON parser: a value, the members
of an object (after its `{`), or the elements of an array (after its `[`). -/
inductive JRes where
  | v : Json → JRes
  | members : List (Str × Json) → JRes
  | elems : List Json → JRes

/-- Parsing modes of the single fuelled parser. -/
inductive JMode where
  | val | members | elems

/-- Strict (CPython `json`) recursive-descent parser, fuelled; all
recursive calls decrease fuel structurally so that the parser evaluates
inside the kernel.  Underfuelling only turns valid documents into parse
errors, never the reverse; `json_loads` supplies ample fuel. -/
def parseJ : Nat → JMode → Str → Option (JRes × Str)
  | 0, _, _ => none
  | fuel + 1, .val, l =>
    let l1 := jwsSkip l
    match l1 with
    | [] => none
    | c :: r =>
      if c = '"' then
        (parseJStr (fuel + 1) r).map (fun p => (.v (.jstr p.1), p.2))
      else if c = Char.ofNat 123 then
        let r1 := jwsSkip r
        match r1 with
        | d :: r2 =>
          if d = Char.ofNat 125 then some (.v (.jobj []), r2)
          else
            match parseJ fuel .members r1 with
            | some (.members ms, r3) => some (.v (.jobj ms), r3)
            | _ => none
        | [] => none
      else if c = '[' then
        let r1 := jwsSkip r
        match r1 with
        | d :: r2 =>
          if d = ']' then some (.v (.jarr []), r2)
          else
            match parseJ fuel .elems r1 with
            | some (.elems es, r3) => some (.v (.jarr es), r3)
            | _ => none
        | [] => none
      else if c = 't' then
        match r with
        | 'r' :: 'u' :: 'e' :: r2 => some (.v (.jbool true), r2)
        | _ => none
      else if c = 'f' then
        match r with
        | 'a' :: 'l' :: 's' :: 'e' :: r2 => some (.v (.jbool false), r2)
        | _ => none
      else if c = 'n' then
        match r with
        | 'u' :: 'l' :: 'l' :: r2 => some (.v .jnull, r2)
        | _ => none
      else
        (parseJNum l1).map (fun p => (.v (.jnum p.1), p.2))
  | fuel + 1, .members, l =>
    let l1 := jwsSkip l
    match l1 with
    | '"' :: r =>
      match parseJStr (fuel + 1) r with
      | none => none
      | some (k, r2) =>
        match jwsSkip r2 with
        | ':' :: r3 =>
          match parseJ fuel .val r3 with
          | some (.v v, r4) =>
            (match jwsSkip r4 with
             | ',' :: r5 =>
               (match parseJ fuel .members r5 with
                | some (.members ms, r6) => some (.members ((k, v) :: ms), r6)
                | _ => none)
             | d :: r5 =>
               if d = Char.ofNat 125 then some (.members [(k, v)], r5) else none
             | [] => none)
          | _ => none
        | _ => none
    | _ => none
  | fuel + 1, .elems, l =>
    (match parseJ fuel .val l with
     | some (.v v, r1) =>
       (match jwsSkip r1 with
        | ',' :: r2 =>
          (match parseJ fuel .elems r2 with
           | some (.elems es, r3) => some (.elems (v :: es), r3)
           | _ => none)
        | ']' :: r2 => some (.elems [v], r2)
        | _ => none)
     | _ => none)

/-- Top-level JSON parse: a single document with only trailing whitespace. -/
def jsonParse (s : Str) : Option Json :=
  match parseJ (2 * s.length + 8) .val s with
  | some (.v v, rest) => if jwsSkip rest = [] then some v else none
  | _ => none

/-- `json.loads(x)`: a string parses (or raises `JSONDecodeError`); any
non-string argument raises `TypeError`. -/
def json_loads (v : PyVal) : Except PyErr Json :=
  match v with
  | .vstr s =>
    match jsonParse s with
    | some j => .ok j
    | none => .error .jsonError
  | _ => .error .typeError

/-- `row.get('metadata', '{}')`: the dict always has the column, so the
default only applies to absent keys. -/
def metadataVal (d : Dict) : PyVal :=
  match dGet d (cs "metadata") with
  | some v => v
  | none => .vstr (cs "\x7b\x7d")

/-- Python truthiness of a parsed JSON value (zero numbers are falsy: the
mantissa of the lexeme is all zeros). -/
def jTruthy : Json → Bool
  | .jnull => false
  | .jbool b => b
  | .jstr s => !s.isEmpty
  | .jarr l => !l.isEmpty
  | .jobj l => !l.isEmpty
  | .jnum lex =>
    (lex.takeWhile (fun c => c ≠ 'e' && c ≠ 'E')).any
      (fun c => '1' ≤ c && c ≤ '9')

/-- `metadata.get(k)` on the parse result: only dicts have `.get`
(anything else raises `AttributeError`). -/
def jDictGet (j : Json) (k : Str) : Except PyErr (Option Json) :=
  match j with
  | .jobj o => .ok ((o.find? (fun kv => kv.1 = k)).map (fun kv => kv.2))
  | _ => .error .typeError

/-- Fuelled renderer behind `jStr`/`jRepr`: Python `str()`/`repr()` of a
parsed JSON value as interpolated into an f-string (container rendering
approximates Python's repr: apostrophe-quoted strings without inner-escape
handling).  `asRepr` selects repr (inner elements are always repr'd). -/
def jReprF : Nat → Bool → Json → Str
  | 0, _, _ => []
  | _ + 1, false, .jstr s => s
  | _ + 1, true, .jstr s => Char.ofNat 39 :: s ++ [Char.ofNat 39]
  | _ + 1, _, .jnull => cs "None"
  | _ + 1, _, .jbool true => cs "True"
  | _ + 1, _, .jbool false => cs "False"
  | _ + 1, _, .jnum lex => lex
  | fuel + 1, _, .jarr l =>
    '[' :: (List.intercalate (cs ", ") (l.map (jReprF fuel true))) ++ [']']
  | fuel + 1, _, .jobj o =>
    Char.ofNat 123 ::
      (List.intercalate (cs ", ")
        (o.map (fun kv =>
          jReprF fuel true (.jstr kv.1) ++ cs ": " ++ jReprF fuel true kv.2)))
      ++ [Char.ofNat 125]

/-- Python `str()` of a parsed JSON value; `budget` bounds the rendering
depth and is supplied by the caller from the length of the source string
the value was parsed from (which always dominates the nesting depth). -/
def jStrB (budget : Nat) (j : Json) : Str := jReprF budget false j

/-! ## Name extraction (`_extract_person_names`)

The pattern is `\b[A-Z][a-z]+(?:\s+[A-Z][a-z]+)+\b` (no IGNORECASE).
Backtracking analysis used by `tryName`:
* `[a-z]+` is greedy; shrinking it never restores the trailing `\b`
  (a lowercase/lowercase junction is boundary-free) but dropping a whole
  trailing repetition does (the junction before the dropped `\s+` is
  lowercase/whitespace), so on a failed trailing boundary the engine keeps
  all repetitions but the last — needing at least one repetition left.
* a repetition whose word has trailing word characters after its `[a-z]+`
  (e.g. `MikeX`) is necessarily the last parsed repetition, since the next
  `\s+` fails immediately on the leftover word character. -/

/-- `[A-Z][a-z]+`, greedy (a capitalized-word prefix). -/
def parseWordN : Str → Option (Str × Str)
  | c :: r =>
    if isUpperA c then
      let ls := r.takeWhile isLowerA
      if ls = [] then none else some (c :: ls, r.dropWhile isLowerA)
    else none
  | [] => none

/-- `\s+`, greedy. -/
def parseWsN (l : Str) : Option (Str × Str) :=
  let ws := l.takeWhile isSpacePy
  if ws = [] then none else some (ws, l.dropWhile isSpacePy)

/-- The repetitions `(?:\s+[A-Z][a-z]+)*`, greedy, fuelled (each round
consumes at least one character). -/
def parseReps : Nat → Str → (List (Str × Str) × Str)
  | 0, l => ([], l)
  | fuel + 1, l =>
    match parseWsN l with
    | none => ([], l)
    | some (ws, r1) =>
      match parseWordN r1 with
      | none => ([], l)
      | some (w, r2) =>
        let pr := parseReps fuel r2
        ((ws, w) :: pr.1, pr.2)

/-- Concatenation of repetitions (each is whitespace ++ word). -/
def flatPairs (ps : List (Str × Str)) : Str := (ps.map (fun p => p.1 ++ p.2)).flatten

/-- One match attempt of the name pattern at the current position. -/
def tryName (pw : Bool) (l : Str) : Option (Str × Str) :=
  if pw then none
  else
    match parseWordN l with
    | none => none
    | some (w1, r1) =>
      let pr := parseReps r1.length r1
      if pr.1 = [] then none
      else if !headIsWord pr.2 then some (w1 ++ flatPairs pr.1, pr.2)
      else if 2 ≤ pr.1.length then
        match pr.1.getLast? with
        | some lastP =>
          some (w1 ++ flatPairs pr.1.dropLast, lastP.1 ++ lastP.2 ++ pr.2)
        | none => none
      else none

/-- `list(set(matches))`: the set collapses duplicates; its iteration order
is interpreter-internal (hash-based) but fixed within a process — modelled
by first-occurrence order. -/
def pySetGo : List Str → List Str → List Str
  | _, [] => []
  | seen, x :: xs =>
    if x ∈ seen then pySetGo seen xs else x :: pySetGo (x :: seen) xs

def pySetList (l : List Str) : List Str := pySetGo [] l

/-- `_extract_person_names` (lines 114–130). -/
def extract_person_names (text : Str) : List Str :=
  pySetList (findAll tryName text)

/-! ## Person matching pipeline -/

/-- Insert-or-max-update into the insertion-ordered `all_matches` dict
(`contact_id -> (contact, max score)`); an update keeps the entry's
position. -/
def updateMax : List (Int × (ContactRow × Nat)) → Int → (ContactRow × Nat) →
    List (Int × (ContactRow × Nat))
  | [], cid, cv => [(cid, cv)]
  | (k, v) :: rest, cid, cv =>
    if k = cid then (if cv.2 > v.2 then (k, cv) else (k, v)) :: rest
    else (k, v) :: updateMax rest cid cv

/-- The result-item shape of `_find_persons_in_text`. -/
def contactScoreItem (c : ContactRow) (score : Nat) : Item :=
  { type := some (cs "contact"), data := some (.dict (contactToDict c)),
    match_score := some score,
    match_reason := some (cs "Found name in text (score: "
      ++ (toString score).data ++ cs ")") }

/-- `_find_persons_in_text` (lines 184–230): extract names, score each
against the contacts, keep the maximum score per contact id (dict insertion
order), convert to result format, stable-sort by score descending. -/
def find_persons_in_text (S : Store) (text : Str) : List Item :=
  let person_names := extract_person_names text
  if person_names = [] then []
  else
    let all_matches := person_names.foldl
      (fun am name =>
        (match_person_to_contact S name).foldl
          (fun am2 p => updateMax am2 p.1.id p) am) []
    let results := all_matches.map (fun kv => contactScoreItem kv.2.1 kv.2.2)
    sortDesc (fun it => it.match_score.getD 0) results

/-- An entry of `detected_people` (`exists` is a Python keyword-free field
name here). -/
structure PersonSave where
  name : Str
  existsInDb : Bool
  contact_id : Option Int
  contact_name : Option Str := none
  score : Option Nat := none
  deriving Repr, DecidableEq

/-- Loop of `_detect_people_for_save` (lines 232–278), threading the
`seen_contact_ids` set (only ids of existing contacts are remembered). -/
def detect_people_go (S : Store) : List Int → List Str → List PersonSave
  | _, [] => []
  | seen, nm :: rest =>
    match match_person_to_contact S nm with
    | [] =>
      { name := nm, existsInDb := false, contact_id := none } ::
        detect_people_go S seen rest
    | best :: _ =>
      let cid := best.1.id
      if cid ∈ seen then detect_people_go S seen rest
      else
        { name := nm, existsInDb := true, contact_id := some cid,
          contact_name := some best.1.name, score := some best.2 } ::
          detect_people_go S (cid :: seen) rest

/-- `_detect_people_for_save`. -/
def detect_people_for_save (S : Store) (text : Str) : List PersonSave :=
  detect_people_go S [] (extract_person_names text)

/-! ## Narrative and insights -/

/-- Python truthiness of a dict value. -/
def truthyV : PyVal → Bool
  | .vstr s => !s.isEmpty
  | .vint n => n ≠ 0
  | .vnone => false
  | .vreal q => q ≠ 0

/-- f-string `str()` of a dict value. -/
def pyStrV : PyVal → Str
  | .vstr s => s
  | .vint n => intToStr n
  | .vnone => cs "None"
  | .vreal q => (toString q).data

/-- `d[k]`: raises `KeyError` when absent. -/
def dIndex (d : Dict) (k : Str) : Except PyErr PyVal :=
  match dGet d k with
  | some v => .ok v
  | none => .error .keyError

/-- `item['data']` used as a dict (attribute/index access on a non-dict or
a missing key raises). -/
def itemDataDict (i : Item) : Except PyErr Dict :=
  match i.data with
  | some (.dict d) => .ok d
  | some (.nondict _) => .error .typeError
  | none => .error .keyError

/-- `', '.join(xs)` over raw dict values: every element must be a string. -/
def pyJoin (vs : List PyVal) : Except PyErr Str := do
  let ss ← vs.mapM (fun v =>
    match v with
    | .vstr s => Except.ok s
    | _ => Except.error PyErr.typeError)
  pure (List.intercalate (cs ", ") ss)

/-- The apostrophe character (quoting in the narrative strings). -/
def apos : Char := Char.ofNat 39

/-- `', '.join(x)` for the `linked_projects` metadata value: a list joins
its (string) elements, a string joins its characters, anything else raises. -/
def joinLinked : Json → Except PyErr Str
  | .jarr l => do
    let ss ← l.mapM (fun j =>
      match j with
      | .jstr s => Except.ok s
      | _ => Except.error PyErr.typeError)
    pure (List.intercalate (cs ", ") ss)
  | .jstr s => .ok (List.intercalate (cs ", ") (s.map (fun c => [c])))
  | _ => .error .typeError

/-- `_generate_smart_context` (lines 482–552). -/
def generate_smart_context (text_type : Option Str)
    (exact_matches related_items : List Item) (abbreviation : Option Dict) :
    Except PyErr Str :=
  match abbreviation with
  | some a => do
    let ab ← dIndex a (cs "abbr")
    let fu ← dIndex a (cs "full")
    let p1 := apos :: pyStrV ab ++ [apos] ++ cs " stands for " ++ pyStrV fu ++ cs "."
    let parts :=
      match dGet a (cs "category") with
      | some v =>
        if truthyV v then [p1, cs "Category: " ++ pyStrV v] else [p1]
      | none => [p1]
    pure (List.intercalate (cs " ") parts)
  | none => do
    let parts0 : List Str :=
      match text_type with
      | some tt =>
        [cs "This looks like a "
          ++ tt.map (fun c => if c = '_' then ' ' else c) ++ cs "."]
      | none => []
    let contacts := exact_matches.filter (fun m => m.type = some (cs "contact"))
    let parts1 ← (match contacts with
      | [] => pure parts0
      | m :: _ => do
        let contact ← itemDataDict m
        let ps : List Str := []
        let ps :=
          match dGet contact (cs "role") with
          | some v => if truthyV v then ps ++ [pyStrV v] else ps
          | none => ps
        let ps :=
          match dGet contact (cs "last_contact") with
          | some v => if truthyV v then ps ++ [cs "Last contact: " ++ pyStrV v] else ps
          | none => ps
        let ps :=
          match dGet contact (cs "next_event") with
          | some v => if truthyV v then ps ++ [cs "Upcoming: " ++ pyStrV v] else ps
          | none => ps
        if ps ≠ [] then do
          let nm ← dIndex contact (cs "name")
          pure (parts0 ++ [pyStrV nm ++ cs ": " ++ List.intercalate (cs ", ") ps])
        else pure parts0)
    let projects := exact_matches.filter (fun m => m.type = some (cs "project"))
    let parts2 ← (match projects with
      | [] => pure parts1
      | m :: _ => do
        let project ← itemDataDict m
        let metadata ← json_loads (metadataVal project)
        let mBudget : Nat :=
          match metadataVal project with
          | .vstr s => s.length + 1
          | _ => 1
        let ps : List Str := []
        let ps :=
          match dGet project (cs "status") with
          | some v => if truthyV v then ps ++ [cs "Status: " ++ pyStrV v] else ps
          | none => ps
        let tl ← jDictGet metadata (cs "team_lead")
        let ps ←
          (match tl with
           | some tv =>
             if jTruthy tv then do
               let tv2 ← (jDictGet metadata (cs "team_lead")).map
                 (fun o => o.getD Json.jnull)
               pure (ps ++ [cs "Lead: " ++ jStrB mBudget tv2])
             else pure ps
           | none => pure ps)
        let nm ← dIndex project (cs "name")
        pure (parts1 ++ [cs "Project " ++ apos :: pyStrV nm ++ [apos]
          ++ cs ": " ++ List.intercalate (cs ", ") ps]))
    let related_contacts := related_items.filter (fun r => r.type = some (cs "contact"))
    let parts3 ← (match related_contacts with
      | [] => pure parts2
      | _ => do
        let names ← (related_contacts.take 3).mapM (fun r => do
          let d ← itemDataDict r
          dIndex d (cs "name"))
        let joined ← pyJoin names
        pure (parts2 ++ [cs "Related to: " ++ joined]))
    if parts3 ≠ [] then pure (List.intercalate (cs " ") parts3)
    else pure (cs "No additional context found.")

/-- Contact clause of `_generate_insights`. -/
def insightContact (m : Item) : Except PyErr (List Str) :=
  if m.type = some (cs "contact") then do
    let contact ← itemDataDict m
    match dGet contact (cs "next_event") with
    | some v =>
      if truthyV v then do
        let nm ← dIndex contact (cs "name")
        pure [cs "Upcoming event with " ++ pyStrV nm ++ cs ": " ++ pyStrV v]
      else pure []
    | none => pure []
  else pure []

/-- Snippet clause of `_generate_insights`. -/
def insightSnippet (m : Item) : Except PyErr (List Str) :=
  if m.type = some (cs "snippet") then do
    let snippet ← itemDataDict m
    let metadata ← json_loads (metadataVal snippet)
    let lp ← (jDictGet metadata (cs "linked_projects")).map
      (fun o => o.getD (Json.jarr []))
    if jTruthy lp then do
      let joined ← joinLinked lp
      pure [cs "This is related to: " ++ joined]
    else pure []
  else pure []

/-- `_generate_insights` (lines 554–598). -/
def generate_insights (exact_matches related_items : List Item) :
    Except PyErr (List Str) := do
  let i1 ← exact_matches.mapM insightContact
  let i2 ← exact_matches.mapM insightSnippet
  let contact_relations := related_items.filter (fun r => r.type = some (cs "contact"))
  let i3 ←
    (if contact_relations.length > 1 then do
      let names ← (contact_relations.take 3).mapM (fun r => do
        let d ← itemDataDict r
        dIndex d (cs "name"))
      let joined ← pyJoin names
      pure [cs "Multiple people involved: " ++ joined]
    else pure ([] : List Str))
  pure (i1.flatten ++ i2.flatten ++ i3)

/-! ## The orchestrator (`analyze`) -/

/-- The assembled result object of `analyze`. -/
structure AnalyzeResult where
  selected_text : Str
  detected_type : Option Str
  patterns : List (Str × List Str)
  abbreviation : Option Dict
  exact_matches : List Item
  semantic_matches : List Dict
  related_items : List Item
  smart_context : Str
  actions : List Dict
  insights : List Str
  detected_people : List PersonSave
  deriving Repr, DecidableEq

/-- The deduplicated union of literal exact matches and person matches
(steps 2–2.1 of `analyze`). -/
def analyze_exact (S : Store) (text : Str) : List Item :=
  dedupe_entities (find_exact_matches S text ++ find_persons_in_text S text)

/-- `exact_match_keys` (lines 70–74): the non-`None` keys of the deduped
exact matches (`match.get('data')` defaults to `None`, not `{}`). -/
def exact_keys (exact : List Item) : List EKey :=
  exact.filterMap item_key_get

/-- `analyze` (lines 35–112).  The pattern matcher state, the optional
semantic collaborator, and the action suggester (an external collaborator
per the spec's scope) are passed as explicit parameters; the store is
read-only throughout. -/
def analyze (S : Store) (pats : List (Str × PRegex))
    (semantic : Option (Str → List Dict))
    (suggest : Str → Option Str → List Item → List (Str × List Str) → List Dict)
    (selected_text : Str) : Except PyErr AnalyzeResult := do
  let patterns ←
    (match detect pats selected_text with
     | .ok d => Except.ok d
     | .error _ => Except.error PyErr.reError)
  let text_type ←
    (match get_type pats selected_text with
     | .ok t => Except.ok t
     | .error _ => Except.error PyErr.reError)
  let exact := analyze_exact S selected_text
  let abbreviation := find_abbreviation S selected_text
  let semantic_matches :=
    match semantic with
    | some f => f selected_text
    | none => []
  let related0 ← get_related_items S exact (exact_keys exact)
  let related := dedupe_entities related0
  let smart_context ← generate_smart_context text_type exact related abbreviation
  let actions := suggest selected_text text_type exact patterns
  let insights ← generate_insights exact related
  let detected_people := detect_people_for_save S selected_text
  pure { selected_text := selected_text, detected_type := text_type,
         patterns := patterns, abbreviation := abbreviation,
         exact_matches := exact, semantic_matches := semantic_matches,
         related_items := related, smart_context := smart_context,
         actions := actions, insights := insights,
         detected_people := detected_people }

/-- One `analyze` call as an interaction with the store: the core issues
only SELECT statements, so the store after the call is the store before. -/
def analyzeRun (S : Store) (pats : List (Str × PRegex))
    (semantic : Option (Str → List Dict))
    (suggest : Str → Option Str → List Item → List (Str × List Str) → List Dict)
    (selected_text : Str) : Except PyErr AnalyzeResult × Store :=
  (analyze S pats semantic suggest selected_text, S)

/-! ### Lemmas about deduplication keys and traversal exclusion -/

theorem dedupe_go_subset (seen : List (Option EKey)) (l : List Item) :
    ∀ i ∈ dedupe_go seen l, i ∈ l := by
  induction l generalizing seen with
  | nil => intro i hi; cases hi
  | cons it rest ih =>
    intro i hi
    simp only [dedupe_go] at hi
    by_cases h : item_key_dedupe it ∈ seen
    · rw [if_pos h] at hi
      exact List.mem_cons_of_mem _ (ih seen i hi)
    · rw [if_neg h] at hi
      rcases List.mem_cons.mp hi with hi | hi
      · subst hi; exact List.mem_cons_self _ _
      · exact List.mem_cons_of_mem _ (ih _ i hi)

theorem dedupe_go_keys (seen : List (Option EKey)) (l : List Item) :
    (∀ i ∈ dedupe_go seen l, item_key_dedupe i ∉ seen) ∧
    ((dedupe_go seen l).map item_key_dedupe).Nodup := by
  induction l generalizing seen with
  | nil => exact ⟨fun i hi => absurd hi (by simp [dedupe_go]), by simp [dedupe_go]⟩
  | cons it rest ih =>
    by_cases h : item_key_dedupe it ∈ seen
    · simpa only [dedupe_go, if_pos h] using ih seen
    · rcases ih (item_key_dedupe it :: seen) with ⟨ihmem, ihnd⟩
      simp only [dedupe_go, if_neg h]
      constructor
      · intro i hi
        rcases List.mem_cons.mp hi with hi | hi
        · subst hi; exact h
        · intro hc
          exact (ihmem i hi) (List.mem_cons_of_mem _ hc)
      · simp only [List.map_cons, List.nodup_cons]
        refine ⟨?_, ihnd⟩
        intro hc
        rcases List.mem_map.mp hc with ⟨j, hj, hkey⟩
        exact (ihmem j hj) (hkey ▸ List.mem_cons_self _ _)

theorem dedupe_entities_subset (l : List Item) :
    ∀ i ∈ dedupe_entities l, i ∈ l :=
  dedupe_go_subset [] l

theorem dedupe_entities_keys_nodup (l : List Item) :
    ((dedupe_entities l).map item_key_dedupe).Nodup :=
  (dedupe_go_keys [] l).2

theorem get_related_not_excluded (S : Store) (ml : List Item) (excl : List EKey)
    (rel0 : List Item) (h : get_related_items S ml excl = .ok rel0) :
    ∀ i ∈ rel0, keyExcluded excl (item_key_dedupe i) = false := by
  induction ml generalizing rel0 with
  | nil =>
    simp only [get_related_items, Except.ok.injEq] at h
    subst h
    intro i hi; cases hi
  | cons m rest ih =>
    simp only [get_related_items] at h
    match hmt : m.type with
    | none => simp only [hmt] at h; exact Except.noConfusion h
    | some mt =>
      simp only [hmt] at h
      match hmd : m.data with
      | none => simp only [hmd] at h; exact Except.noConfusion h
      | some (.nondict s) => simp only [hmd] at h; exact Except.noConfusion h
      | some (.dict d) =>
        simp only [hmd] at h
        match hid : dGet d (cs "id") with
        | none => simp only [hid] at h; exact Except.noConfusion h
        | some mid =>
          simp only [hid] at h
          match hrest : get_related_items S rest excl with
          | .error e => simp only [hrest] at h; exact Except.noConfusion h
          | .ok restItems =>
            simp only [hrest, Except.ok.injEq] at h
            subst h
            intro i hi
            rcases List.mem_append.mp hi with hi | hi
            rcases List.mem_append.mp hi with hi | hi
            · rcases List.mem_filterMap.mp hi with ⟨rr, _, hf⟩
              match hfe : fetch_entity S rr.to_type rr.to_id with
              | none => simp only [hfe] at hf; exact Option.noConfusion hf
              | some ent =>
                simp only [hfe] at hf
                by_cases hke : keyExcluded excl (entity_key rr.to_type (.dict ent)) = true
                · rw [if_pos hke] at hf; exact Option.noConfusion hf
                · rw [if_neg hke] at hf
                  injection hf with hf2
                  subst hf2
                  simp only [Bool.not_eq_true] at hke
                  exact hke
            · rcases List.mem_filterMap.mp hi with ⟨rr, _, hf⟩
              match hfe : fetch_entity S rr.from_type rr.from_id with
              | none => simp only [hfe] at hf; exact Option.noConfusion hf
              | some ent =>
                simp only [hfe] at hf
                by_cases hke : keyExcluded excl (entity_key rr.from_type (.dict ent)) = true
                · rw [if_pos hke] at hf; exact Option.noConfusion hf
                · rw [if_neg hke] at hf
                  injection hf with hf2
                  subst hf2
                  simp only [Bool.not_eq_true] at hke
                  exact hke
            · exact ih restItems hrest i hi

theorem find_exact_matches_data_dict (S : Store) (t : Str) :
    ∀ i ∈ find_exact_matches S t, ∃ d0, i.data = some d0 := by
  intro i hi
  unfold find_exact_matches at hi
  rcases List.mem_append.mp hi with hi | hi
  · rcases List.mem_append.mp hi with hi | hi
    · rcases List.mem_map.mp hi with ⟨c, _, rfl⟩
      exact ⟨_, rfl⟩
    · rcases List.mem_map.mp hi with ⟨sn, _, rfl⟩
      exact ⟨_, rfl⟩
  · rcases List.mem_map.mp hi with ⟨p, _, rfl⟩
    exact ⟨_, rfl⟩

theorem find_persons_data_dict (S : Store) (t : Str) :
    ∀ i ∈ find_persons_in_text S t, ∃ d0, i.data = some d0 := by
  intro i hi
  unfold find_persons_in_text at hi
  by_cases h : extract_person_names t = []
  · rw [if_pos h] at hi; cases hi
  · rw [if_neg h] at hi
    have hi2 := (sortDesc_perm (fun it : Item => it.match_score.getD 0) _).mem_iff.mp hi
    rcases List.mem_map.mp hi2 with ⟨kv, _, rfl⟩
    exact ⟨_, rfl⟩

theorem item_key_get_eq_dedupe (i : Item) (d0 : PyData) (h : i.data = some d0) :
    item_key_get i = item_key_dedupe i := by
  unfold item_key_get item_key_dedupe
  rw [h]
  rfl

/-- Inversion of a successful `analyze` run: the exact-match list is the
deduped union, and the related list is the deduped traversal against the
exact keys. -/
theorem analyze_ok_parts {S : Store} {pats : List (Str × PRegex)}
    {sem : Option (Str → List Dict)}
    {sug : Str → Option Str → List Item → List (Str × List Str) → List Dict}
    {t : Str} {r : AnalyzeResult}
    (h : analyze S pats sem sug t = .ok r) :
    r.exact_matches = analyze_exact S t ∧
    ∃ rel0, get_related_items S (analyze_exact S t)
        (exact_keys (analyze_exact S t)) = .ok rel0 ∧
      r.related_items = dedupe_entities rel0 := by
  unfold analyze at h
  simp only [bind, Except.bind, pure, Except.pure] at h
  match h1 : detect pats t with
  | .error e => simp only [h1] at h; exact Except.noConfusion h
  | .ok dp =>
    simp only [h1] at h
    match h2 : get_type pats t with
    | .error e => simp only [h2] at h; exact Except.noConfusion h
    | .ok tt =>
      simp only [h2] at h
      match h3 : get_related_items S (analyze_exact S t)
          (exact_keys (analyze_exact S t)) with
      | .error e => simp only [h3] at h; exact Except.noConfusion h
      | .ok rel0 =>
        simp only [h3] at h
        match h4 : generate_smart_context tt (analyze_exact S t)
            (dedupe_entities rel0) (find_abbreviation S t) with
        | .error e => simp only [h4] at h; exact Except.noConfusion h
        | .ok sc =>
          simp only [h4] at h
          match h5 : generate_insights (analyze_exact S t) (dedupe_entities rel0) with
          | .error e => simp only [h5] at h; exact Except.noConfusion h
          | .ok ins =>
            simp only [h5, Except.ok.injEq] at h
            subst h
            exact ⟨rfl, rel0, rfl, rfl⟩

/-- C3: for every input text and store state, in a successful `analyze`
result no canonical key is shared between `exact_matches` and
`related_items`, and within each of the two lists all canonical keys are
pairwise distinct. -/
theorem C3_analyze_key_invariants
    (S : Store) (pats : List (Str × PRegex))
    (sem : Option (Str → List Dict))
    (sug : Str → Option Str → List Item → List (Str × List Str) → List Dict)
    (t : Str) (r : AnalyzeResult)
    (h : analyze S pats sem sug t = .ok r) :
    ((r.exact_matches.map item_key_dedupe).Nodup) ∧
    ((r.related_items.map item_key_dedupe).Nodup) ∧
    (∀ k, k ∈ r.exact_matches.filterMap item_key_dedupe →
      k ∉ r.related_items.filterMap item_key_dedupe) := by
  obtain ⟨hex, rel0, hrel, hrelEq⟩ := analyze_ok_parts h
  refine ⟨?_, ?_, ?_⟩
  · rw [hex]
    exact dedupe_entities_keys_nodup _
  · rw [hrelEq]
    exact dedupe_entities_keys_nodup _
  · intro k hk hk2
    rw [hex] at hk
    rw [hrelEq] at hk2
    rcases List.mem_filterMap.mp hk with ⟨i, hi, hikey⟩
    rcases List.mem_filterMap.mp hk2 with ⟨j, hj, hjkey⟩
    -- the exact item's key is in the exclude set
    have hidata : ∃ d0, i.data = some d0 := by
      have hi2 := dedupe_entities_subset _ i hi
      rcases List.mem_append.mp hi2 with hi3 | hi3
      · exact find_exact_matches_data_dict S t i hi3
      · exact find_persons_data_dict S t i hi3
    rcases hidata with ⟨d0, hd0⟩
    have hkin : k ∈ exact_keys (analyze_exact S t) := by
      refine List.mem_filterMap.mpr ⟨i, hi, ?_⟩
      rw [item_key_get_eq_dedupe i d0 hd0, hikey]
    -- the related item survived the exclusion filter
    have hnotex := get_related_not_excluded S _ _ rel0 hrel j
      (dedupe_entities_subset _ j hj)
    rw [hjkey] at hnotex
    unfold keyExcluded at hnotex
    have hne : (exact_keys (analyze_exact S t)).isEmpty = false := by
      cases hE : exact_keys (analyze_exact S t) with
      | nil => rw [hE] at hkin; cases hkin
      | cons a as => simp [List.isEmpty]
    rw [hne] at hnotex
    simp at hnotex
    exact hnotex hkin

/-- The empty store. -/
def emptyStore : Store :=
  { contacts := [], snippets := [], projects := [], abbreviations := [],
    relationships := [] }

/-- The result `analyze` produces on the empty store for the text "x". -/
def emptyResult : AnalyzeResult :=
  { selected_text := cs "x", detected_type := none, patterns := [],
    abbreviation := none, exact_matches := [], semantic_matches := [],
    related_items := [], smart_context := cs "No additional context found.",
    actions := [], insights := [], detected_people := [] }

/-- Witness for C3: a concrete successful run (empty store). -/
theorem C3_analyze_key_invariants_witness :
    ((emptyResult.exact_matches.map item_key_dedupe).Nodup) := by
  have h := C3_analyze_key_invariants emptyStore PATTERNS0 none
    (fun _ _ _ _ => []) (cs "x") emptyResult (by rfl)
  exact h.1

/-- C9: two consecutive `analyze` calls against an unchanged store return
identical results — the first call leaves the store untouched (the core
only issues SELECTs) and the whole pipeline is a deterministic function of
the store, the registered patterns, the collaborators, and the text. -/
theorem C9_analyze_idempotent (S : Store) (pats : List (Str × PRegex))
    (sem : Option (Str → List Dict))
    (sug : Str → Option Str → List Item → List (Str × List Str) → List Dict)
    (t : Str) :
    (analyzeRun S pats sem sug t).1
        = (analyzeRun (analyzeRun S pats sem sug t).2 pats sem sug t).1 ∧
    (analyzeRun S pats sem sug t).2 = S :=
  ⟨rfl, rfl⟩

/-! ### C5: spec-side traversal shape, written from the claim's words -/

/-- Claim-side: the resolved outgoing neighbors of one matched entity, in
edge-store order, with `relationship_type` unchanged; dangling endpoints
and excluded keys are skipped. -/
def spec_outgoing (S : Store) (excl : List EKey) (mt : Str) (mid : PyVal) :
    List Item :=
  (S.relationships.filter (fun r =>
      sqlEqTyParam r.from_type mt && sqlEqIdParam r.from_id mid)).filterMap
    (fun r =>
      match fetch_entity S r.to_type r.to_id with
      | none => none
      | some ent =>
        if keyExcluded excl (entity_key r.to_type (.dict ent)) then none
        else some { type := r.to_type, data := some (.dict ent),
                    relationship := some (optV r.relationship_type),
                    strength := some (optRatV r.strength) })

/-- Claim-side: the resolved incoming neighbors, `relationship_type`
prefixed with `inverse_`. -/
def spec_incoming (S : Store) (excl : List EKey) (mt : Str) (mid : PyVal) :
    List Item :=
  (S.relationships.filter (fun r =>
      sqlEqTyParam r.to_type mt && sqlEqIdParam r.to_id mid)).filterMap
    (fun r =>
      match fetch_entity S r.from_type r.from_id with
      | none => none
      | some ent =>
        if keyExcluded excl (entity_key r.from_type (.dict ent)) then none
        else some { type := r.from_type, data := some (.dict ent),
                    relationship := some (.vstr
                      (cs "inverse_" ++ fstrOpt r.relationship_type)),
                    strength := some (optRatV r.strength) })

/-- Claim-side: one matched entity's group — outgoing neighbors before
incoming ones. -/
def spec_related_for (S : Store) (excl : List EKey) (m : Item) : List Item :=
  match m.type, m.data with
  | some mt, some (.dict d) =>
    (match dGet d (cs "id") with
     | some mid => spec_outgoing S excl mt mid ++ spec_incoming S excl mt mid
     | none => [])
  | _, _ => []

/-- C5: for every matched-entity list (each carrying a type and a dict
payload with an id, as every analyzer-produced match does) and every
exclude set, graph traversal returns without raising the groups of the
matched entities in order, each group listing outgoing edges (relationship
unchanged) before incoming edges (relationship prefixed `inverse_`),
skipping excluded keys and silently skipping dangling endpoints. -/
theorem C5_graph_traversal_order (S : Store) (ml : List Item) (excl : List EKey)
    (h : ∀ m ∈ ml, ∃ mt d v, m.type = some mt ∧ m.data = some (.dict d) ∧
      dGet d (cs "id") = some v) :
    get_related_items S ml excl = .ok ((ml.map (spec_related_for S excl)).flatten) := by
  induction ml with
  | nil => rfl
  | cons m rest ih =>
    obtain ⟨mt, d, v, hmt, hmd, hid⟩ := h m (List.mem_cons_self _ _)
    simp only [get_related_items, hmt, hmd, hid]
    rw [ih (fun m2 hm2 => h m2 (List.mem_cons_of_mem _ hm2))]
    simp only [List.map_cons, List.flatten_cons, Except.ok.injEq]
    simp only [spec_related_for, hmt, hmd, hid, spec_outgoing, spec_incoming,
      List.append_assoc]

/-- Store for the C5 witness: one contact, one project, one edge between
them, plus one dangling edge. -/
def c5Store : Store :=
  { contacts := [{ id := 1, name := cs "Ada", email := none, role := none,
                   context := none, last_contact := none, next_event := none,
                   tags := none, metadata := none }],
    snippets := [],
    projects := [{ id := 2, name := cs "Widget", status := none,
                   description := none, tags := none, metadata := none }],
    abbreviations := [],
    relationships :=
      [{ id := 1, from_type := some (cs "contact"), from_id := some 1,
         to_type := some (cs "project"), to_id := some 2,
         relationship_type := some (cs "works_on"), strength := some 1,
         metadata := none },
       { id := 2, from_type := some (cs "contact"), from_id := some 1,
         to_type := some (cs "project"), to_id := some 99,
         relationship_type := some (cs "mentions"), strength := some 1,
         metadata := none }] }

/-- The matched entity for the C5 witness. -/
def c5Match : Item :=
  { type := some (cs "contact"),
    data := some (.dict [(cs "id", .vint 1), (cs "name", .vstr (cs "Ada"))]) }

/-- Witness for C5: concrete traversal (the dangling edge to project 99 is
skipped silently; the live edge appears with its relationship unchanged). -/
theorem C5_graph_traversal_order_witness :
    get_related_items c5Store [c5Match] []
      = .ok (([c5Match].map (spec_related_for c5Store [])).flatten) :=
  C5_graph_traversal_order c5Store [c5Match] []
    (by
      intro m hm
      rcases List.mem_singleton.mp hm with rfl
      exact ⟨cs "contact", _, .vint 1, rfl, rfl, rfl⟩)

/-! ### C7: unparseable metadata JSON propagates out of `analyze` -/

/-- A store whose only row is a project named "Alpha" with the given
metadata text. -/
def badMetaStore (meta : Str) : Store :=
  { contacts := [], snippets := [],
    projects := [{ id := 1, name := cs "Alpha", status := some (cs "active"),
                   description := none, tags := none, metadata := some meta }],
    abbreviations := [], relationships := [] }

/-- The exact-match item `analyze` builds for that project. -/
def projItem7 (meta : Str) : Item :=
  { type := some (cs "project"),
    data := some (.dict (projectToDict
      { id := 1, name := cs "Alpha", status := some (cs "active"),
        description := none, tags := none, metadata := some meta })) }

/-- The action suggester used in the C7 runs (its output is irrelevant:
the failure happens before actions are computed). -/
def sug7 : Str → Option Str → List Item → List (Str × List Str) → List Dict :=
  fun _ _ _ _ => []

/-- C7 counterexample: with a project whose metadata is not parseable
JSON matched by the text, `analyze` raises (the `json.loads` error
propagates out) instead of treating the metadata as empty. -/
theorem C7_counterexample_metadata_raises :
    analyze (badMetaStore (cs "oops")) PATTERNS0 none sug7 (cs "Alpha")
      = .error PyErr.jsonError := by rfl

/-- `analyze` fails whenever its smart-context step fails (given the
earlier fallible steps succeeded). -/
theorem analyze_error_of_smart {S : Store} {pats : List (Str × PRegex)}
    {sem : Option (Str → List Dict)}
    {sug : Str → Option Str → List Item → List (Str × List Str) → List Dict}
    {t : Str} {dp : List (Str × List Str)} {rel0 : List Item} {e : PyErr}
    (h1 : detect pats t = .ok dp)
    (h2 : get_related_items S (analyze_exact S t)
      (exact_keys (analyze_exact S t)) = .ok rel0)
    (h3 : generate_smart_context (classifyFrom dp) (analyze_exact S t)
      (dedupe_entities rel0) (find_abbreviation S t) = .error e) :
    analyze S pats sem sug t = .error e := by
  have hg : get_type pats t = .ok (classifyFrom dp) := by
    unfold get_type
    simp only [h1]
  unfold analyze
  simp only [bind, Except.bind, pure, Except.pure, h1, hg, h2, h3]

/-- The narrative generation fails on the unparseable metadata of the
first matched project. -/
theorem smart_context_err7 (meta : Str) (hbad : jsonParse meta = none) :
    generate_smart_context none [projItem7 meta] [] none
      = .error PyErr.jsonError := by
  have hjl : json_loads (PyVal.vstr meta) = .error PyErr.jsonError := by
    show (match jsonParse meta with
          | some j => Except.ok j
          | none => Except.error PyErr.jsonError) = Except.error PyErr.jsonError
    rw [hbad]
  have step : ∀ (inner : Json → Except PyErr (List Str))
      (k2 : List Str → Except PyErr Str),
      ((json_loads (PyVal.vstr meta)).bind inner).bind k2
        = Except.error PyErr.jsonError := by
    intro inner k2
    rw [hjl]
    rfl
  exact step _ _

/-- C7 amended: for every metadata text that fails to parse as JSON,
`analyze` on the store whose matched project carries it propagates the
`json.loads` failure as an error instead of treating the metadata as
empty and completing. -/
theorem C7_metadata_error_propagates (meta : Str)
    (hbad : jsonParse meta = none) :
    analyze (badMetaStore meta) PATTERNS0 none sug7 (cs "Alpha")
      = .error PyErr.jsonError :=
  analyze_error_of_smart rfl rfl (smart_context_err7 meta hbad)

/-- Witness for C7's amended theorem at another concrete metadata text. -/
theorem C7_metadata_error_propagates_witness :
    analyze (badMetaStore (cs "not json at all")) PATTERNS0 none sug7 (cs "Alpha")
      = .error PyErr.jsonError :=
  C7_metadata_error_propagates (cs "not json at all") (by rfl)

/-! ## C6: claim-side view of name extraction

The claim describes `extract_names` as the set of maximal spans of two or
more consecutive capitalized words.  The claim-side formalisation
tokenizes the text into maximal word-character runs, maximal whitespace
runs, and single other characters; a capitalized word is a whole word run
of shape `[A-Z][a-z]+`; a span is a maximal chain of capitalized words
separated by whitespace runs. -/

/-- A token of the claim-side view. -/
inductive Tok where
  | word : Str → Tok
  | space : Str → Tok
  | other : Char → Tok
  deriving Repr, DecidableEq

def tokStr : Tok → Str
  | .word w => w
  | .space s => s
  | .other c => [c]

def tokFlat (ts : List Tok) : Str := (ts.map tokStr).flatten

/-- Fuelled tokenizer (maximal runs; fuel = string length suffices). -/
def tokenizeF : Nat → Str → List Tok
  | 0, _ => []
  | _ + 1, [] => []
  | fuel + 1, c :: r =>
    if isWordChar c then
      .word (c :: r.takeWhile isWordChar) :: tokenizeF fuel (r.dropWhile isWordChar)
    else if isSpacePy c then
      .space (c :: r.takeWhile isSpacePy) :: tokenizeF fuel (r.dropWhile isSpacePy)
    else .other c :: tokenizeF fuel r

def tokenize (s : Str) : List Tok := tokenizeF s.length s

def isWordTokHead : List Tok → Bool
  | .word _ :: _ => true
  | _ => false

def isSpaceTokHead : List Tok → Bool
  | .space _ :: _ => true
  | _ => false

/-- Well-formed token lists: runs are nonempty, homogeneous, and maximal
(no two adjacent tokens of the same mergeable kind). -/
def TokWF : List Tok → Prop
  | [] => True
  | .word w :: rest =>
    (w ≠ [] ∧ w.all isWordChar = true) ∧ isWordTokHead rest = false ∧ TokWF rest
  | .space s :: rest =>
    (s ≠ [] ∧ s.all isSpacePy = true) ∧ isSpaceTokHead rest = false ∧ TokWF rest
  | .other c :: rest =>
    (isWordChar c = false ∧ isSpacePy c = false) ∧ TokWF rest

/-- A capitalized word: one ASCII uppercase letter followed by one or more
ASCII lowercase letters (the whole word). -/
def capWord (w : Str) : Bool :=
  match w with
  | c :: cs2 => isUpperA c && !cs2.isEmpty && cs2.all isLowerA
  | [] => false

/-- Collect the maximal chain of `(whitespace, capitalized word)` pairs. -/
def collectPairs : List Tok → List (Str × Str) × List Tok
  | .space s :: .word w :: rest =>
    if capWord w then
      let pr := collectPairs rest
      ((s, w) :: pr.1, pr.2)
    else ([], .space s :: .word w :: rest)
  | ts => ([], ts)

theorem collectPairs_length (ts : List Tok) :
    (collectPairs ts).2.length ≤ ts.length := by
  match ts with
  | .space s :: .word w :: rest =>
    by_cases h : capWord w = true
    · have := collectPairs_length rest
      simp only [collectPairs, if_pos h]
      simp only [List.length_cons]
      omega
    · simp [collectPairs, h]
  | [] => simp [collectPairs]
  | [.space s] => simp [collectPairs]
  | .space s :: .space s2 :: r => simp [collectPairs]
  | .space s :: .other c :: r => simp [collectPairs]
  | .word w :: r => simp [collectPairs]
  | .other c :: r => simp [collectPairs]

/-- Claim-side span extraction: for each capitalized word starting a chain
of at least two capitalized words joined by whitespace, emit the maximal
chain as one span (with its original whitespace); everything else is
skipped. -/
def spansTok : List Tok → List Str
  | [] => []
  | .word w :: rest =>
    if capWord w then
      let pr := collectPairs rest
      if pr.1 ≠ [] then (w ++ flatPairs pr.1) :: spansTok pr.2
      else spansTok rest
    else spansTok rest
  | .space _ :: rest => spansTok rest
  | .other _ :: rest => spansTok rest
termination_by ts => ts.length
decreasing_by
  · have := collectPairs_length rest
    simp only [List.length_cons]
    omega
  · simp only [List.length_cons]
    omega
  · simp only [List.length_cons]
    omega
  · simp only [List.length_cons]
    omega
  · simp only [List.length_cons]
    omega

/-! ### Character-class and run lemmas -/

theorem space_not_word {c : Char} (h : isSpacePy c = true) :
    isWordChar c = false := by
  simp only [isSpacePy, Bool.or_eq_true, decide_eq_true_eq] at h
  rcases h with ((((rfl | rfl) | rfl) | rfl) | rfl) | rfl <;> rfl

theorem upper_is_word {c : Char} (h : isUpperA c = true) :
    isWordChar c = true := by
  simp [isWordChar, isAlphaA, h]

theorem lower_is_word {c : Char} (h : isLowerA c = true) :
    isWordChar c = true := by
  simp [isWordChar, isAlphaA, h]

theorem lower_not_space {c : Char} (h : isLowerA c = true) :
    isSpacePy c = false := by
  cases hs : isSpacePy c
  · rfl
  · exact absurd (lower_is_word h) (by simp [space_not_word hs])

theorem takeWhile_append_all {p : Char → Bool} {a b : Str}
    (ha : a.all p = true) (hb : ∀ c, b.head? = some c → p c = false) :
    (a ++ b).takeWhile p = a ∧ (a ++ b).dropWhile p = b := by
  induction a with
  | nil =>
    simp only [List.nil_append]
    cases b with
    | nil => simp
    | cons c bs =>
      have := hb c rfl
      simp [List.takeWhile, List.dropWhile, this]
  | cons x a2 ih =>
    simp only [List.all_cons, Bool.and_eq_true] at ha
    have ih2 := ih ha.2
    simp only [List.cons_append, List.takeWhile, List.dropWhile, ha.1]
    simp [ih2.1, ih2.2]

theorem word_not_space {c : Char} (h : isWordChar c = true) :
    isSpacePy c = false := by
  cases hs : isSpacePy c
  · rfl
  · rw [space_not_word hs] at h
    exact h.symm

theorem not_word_not_upper {c : Char} (h : isWordChar c = false) :
    isUpperA c = false := by
  cases hu : isUpperA c
  · rfl
  · rw [upper_is_word hu] at h
    exact h

theorem not_word_not_lower {c : Char} (h : isWordChar c = false) :
    isLowerA c = false := by
  cases hu : isLowerA c
  · rfl
  · rw [lower_is_word hu] at h
    exact h

theorem takeWhile_all_self {p : Char → Bool} : ∀ l : Str,
    (l.takeWhile p).all p = true := by
  intro l
  induction l with
  | nil => rfl
  | cons c t ih =>
    by_cases hp : p c = true
    · simp [List.takeWhile_cons, hp, ih]
    · simp [List.takeWhile_cons, hp]

theorem dropWhile_head_false {p : Char → Bool} : ∀ (l : Str) (c : Char),
    (l.dropWhile p).head? = some c → p c = false := by
  intro l
  induction l with
  | nil => intro c h; simp at h
  | cons x t ih =>
    intro c h
    by_cases hp : p x = true
    · rw [List.dropWhile_cons, if_pos hp] at h
      exact ih c h
    · rw [List.dropWhile_cons, if_neg hp] at h
      simp only [List.head?_cons, Option.some.injEq] at h
      rw [← h]
      exact Bool.eq_false_iff.mpr hp

theorem takeWhile_append_stop {p : Char → Bool} : ∀ (t r : Str),
    t.dropWhile p ≠ [] →
    (t ++ r).takeWhile p = t.takeWhile p ∧ (t ++ r).dropWhile p = t.dropWhile p ++ r := by
  intro t
  induction t with
  | nil => intro r h; exact absurd rfl h
  | cons x t ih =>
    intro r h
    by_cases hp : p x = true
    · rw [List.dropWhile_cons, if_pos hp] at h
      have := ih r h
      simp only [List.cons_append, List.takeWhile_cons, List.dropWhile_cons, if_pos hp, hp]
      simp [this.1, this.2]
    · simp [List.cons_append, List.takeWhile_cons, List.dropWhile_cons, hp]

/-! ### parseWordN / parseWsN decomposition -/

theorem parseWordN_cons (c : Char) (t : Str) :
    parseWordN (c :: t) =
      if isUpperA c then
        (if t.takeWhile isLowerA = [] then none
         else some (c :: t.takeWhile isLowerA, t.dropWhile isLowerA))
      else none := rfl

theorem parseWordN_eq {l w r : Str} (h : parseWordN l = some (w, r)) :
    w ≠ [] ∧ w ++ r = l := by
  cases l with
  | nil => simp [parseWordN] at h
  | cons c t =>
    rw [parseWordN_cons] at h
    by_cases hu : isUpperA c = true
    · rw [if_pos hu] at h
      by_cases he : t.takeWhile isLowerA = []
      · rw [if_pos he] at h; exact absurd h (by simp)
      · rw [if_neg he] at h
        simp only [Option.some.injEq, Prod.mk.injEq] at h
        obtain ⟨rfl, rfl⟩ := h
        exact ⟨by simp, by simp [List.takeWhile_append_dropWhile]⟩
    · rw [if_neg hu] at h; exact absurd h (by simp)

theorem parseWordN_of_cap {w : Str} (h : capWord w = true) :
    parseWordN w = some (w, []) := by
  cases w with
  | nil => simp [capWord] at h
  | cons c t =>
    simp only [capWord, Bool.and_eq_true, Bool.not_eq_true'] at h
    obtain ⟨⟨hc, htne⟩, hall⟩ := h
    have hne : t ≠ [] := by
      cases t
      · simp at htne
      · simp
    have htw := takeWhile_append_all (p := isLowerA) (a := t) (b := []) hall (by simp)
    simp only [List.append_nil] at htw
    rw [parseWordN_cons, if_pos hc, htw.1, htw.2, if_neg hne]

theorem parseWordN_none_cap {w : Str} (h : parseWordN w = none) :
    capWord w = false := by
  cases hc : capWord w
  · rfl
  · rw [parseWordN_of_cap hc] at h; exact absurd h (by simp)

theorem parseWordN_exact {w wp : Str} (h : parseWordN w = some (wp, [])) :
    wp = w ∧ capWord w = true := by
  cases w with
  | nil => simp [parseWordN] at h
  | cons c t =>
    rw [parseWordN_cons] at h
    by_cases hu : isUpperA c = true
    · rw [if_pos hu] at h
      by_cases he : t.takeWhile isLowerA = []
      · rw [if_pos he] at h; exact absurd h (by simp)
      · rw [if_neg he] at h
        simp only [Option.some.injEq, Prod.mk.injEq] at h
        obtain ⟨h1, h2⟩ := h
        have htw : t.takeWhile isLowerA = t := by
          have := List.takeWhile_append_dropWhile (p := isLowerA) (l := t)
          rw [h2, List.append_nil] at this
          exact this
        constructor
        · rw [← h1, htw]
        · have hne : t ≠ [] := by rw [← htw]; exact he
          have hall : t.all isLowerA = true := by
            rw [← htw]; exact takeWhile_all_self t
          simp [capWord, hu, hall, hne]
    · rw [if_neg hu] at h; exact absurd h (by simp)

theorem parseWordN_leftover {w wp lo : Str} (hw : w.all isWordChar = true)
    (h : parseWordN w = some (wp, lo)) (hlo : lo ≠ []) :
    capWord w = false ∧ w = wp ++ lo ∧ headIsWord lo = true ∧
      (∀ c, lo.head? = some c → isSpacePy c = false ∧ isLowerA c = false) := by
  have heq := parseWordN_eq h
  have hsplit : w = wp ++ lo := heq.2.symm
  have hlohead : ∀ c, lo.head? = some c → isLowerA c = false := by
    intro c hc
    cases w with
    | nil => simp [parseWordN] at h
    | cons c0 t =>
      rw [parseWordN_cons] at h
      by_cases hu : isUpperA c0 = true
      · rw [if_pos hu] at h
        by_cases he : t.takeWhile isLowerA = []
        · rw [if_pos he] at h; exact absurd h (by simp)
        · rw [if_neg he] at h
          simp only [Option.some.injEq, Prod.mk.injEq] at h
          rw [← h.2] at hc
          exact dropWhile_head_false t c hc
      · rw [if_neg hu] at h; exact absurd h (by simp)
  have hloword : ∀ c, lo.head? = some c → isWordChar c = true := by
    intro c hc
    have : c ∈ w := by
      rw [hsplit]
      cases lo with
      | nil => exact absurd rfl hlo
      | cons c1 t1 =>
        simp only [List.head?_cons, Option.some.injEq] at hc
        subst hc
        exact List.mem_append.mpr (Or.inr (List.mem_cons_self c1 t1))
    exact List.all_eq_true.mp hw c this
  refine ⟨?_, hsplit, ?_, ?_⟩
  · cases lo with
    | nil => exact absurd rfl hlo
    | cons c1 t1 =>
      have hc1l : isLowerA c1 = false := hlohead c1 rfl
      cases w with
      | nil => simp [parseWordN] at h
      | cons c0 t =>
        have hwp : wp ≠ [] := heq.1
        have ht : t = wp.tail ++ c1 :: t1 := by
          cases wp with
          | nil => exact absurd rfl hwp
          | cons a as =>
            simp only [List.cons_append] at hsplit
            exact (List.cons.injEq .. ▸ hsplit).2
        simp only [capWord]
        cases ht2 : t with
        | nil =>
          rw [ht2] at ht
          cases wp.tail <;> simp at ht
        | cons d ds =>
          have : (t.all isLowerA) = false := by
            rw [ht]
            simp only [List.all_append, List.all_cons, Bool.and_eq_true, Bool.and_eq_false_iff]
            right
            simp [hc1l]
          rw [← ht2, this]
          simp
  · cases lo with
    | nil => exact absurd rfl hlo
    | cons c1 t1 =>
      simp only [headIsWord]
      exact hloword c1 rfl
  · intro c hc
    exact ⟨word_not_space (hloword c hc), hlohead c hc⟩

theorem parseWordN_ctx {w r : Str} (hw : w.all isWordChar = true)
    (hr : headIsWord r = false) :
    parseWordN (w ++ r) = (parseWordN w).map (fun p => (p.1, p.2 ++ r)) := by
  have hrh : ∀ c, r.head? = some c → isLowerA c = false := by
    intro c hc
    cases r with
    | nil => simp at hc
    | cons c0 t0 =>
      simp only [List.head?_cons, Option.some.injEq] at hc
      subst hc
      exact not_word_not_lower hr
  cases w with
  | nil =>
    simp only [List.nil_append]
    cases r with
    | nil => rfl
    | cons c0 t0 =>
      rw [parseWordN_cons, if_neg]
      · rfl
      · simp [not_word_not_upper hr]
  | cons c t =>
    simp only [List.all_cons, Bool.and_eq_true] at hw
    rw [List.cons_append, parseWordN_cons, parseWordN_cons]
    by_cases hu : isUpperA c = true
    · rw [if_pos hu, if_pos hu]
      by_cases hd : t.dropWhile isLowerA = []
      · have htw : t.takeWhile isLowerA = t := by
          have := List.takeWhile_append_dropWhile (p := isLowerA) (l := t)
          rw [hd, List.append_nil] at this
          exact this
        have hta := takeWhile_append_all (p := isLowerA) (a := t) (b := r)
          (by rw [← htw]; exact takeWhile_all_self t) hrh
        rw [hta.1, hta.2, htw, hd]
        by_cases he : t = []
        · subst he; simp
        · rw [if_neg he, if_neg he]
          simp
      · have hst := takeWhile_append_stop (p := isLowerA) t r hd
        rw [hst.1, hst.2]
        by_cases he : t.takeWhile isLowerA = []
        · rw [if_pos he, if_pos he]; rfl
        · rw [if_neg he, if_neg he]; simp
    · rw [if_neg hu, if_neg hu]; rfl

theorem parseWsN_tok {s r : Str} (hs : s.all isSpacePy = true) (hne : s ≠ [])
    (hr : ∀ c, r.head? = some c → isSpacePy c = false) :
    parseWsN (s ++ r) = some (s, r) := by
  have hta := takeWhile_append_all (p := isSpacePy) (a := s) (b := r) hs hr
  simp only [parseWsN, hta.1, hta.2]
  rw [if_neg hne]

theorem parseWsN_none {l : Str} (h : ∀ c, l.head? = some c → isSpacePy c = false) :
    parseWsN l = none := by
  cases l with
  | nil => rfl
  | cons c t =>
    have := h c rfl
    simp [parseWsN, List.takeWhile_cons, this]

/-! ### Token flattening and head facts -/

theorem tokFlat_cons (t : Tok) (ts : List Tok) :
    tokFlat (t :: ts) = tokStr t ++ tokFlat ts := by
  simp [tokFlat]

theorem flat_head_not_word {ts : List Tok} (hwf : TokWF ts)
    (hh : isWordTokHead ts = false) :
    ∀ c, (tokFlat ts).head? = some c → isWordChar c = false := by
  intro c hc
  match ts with
  | [] => simp [tokFlat] at hc
  | .word w :: rest => simp [isWordTokHead] at hh
  | .space s :: rest =>
    obtain ⟨⟨hne, hall⟩, _, _⟩ := hwf
    rw [tokFlat_cons] at hc
    cases s with
    | nil => exact absurd rfl hne
    | cons c0 s2 =>
      simp only [tokStr, List.cons_append, List.head?_cons, Option.some.injEq] at hc
      subst hc
      have : isSpacePy c0 = true := by
        simp only [List.all_cons, Bool.and_eq_true] at hall
        exact hall.1
      exact space_not_word this
  | .other c0 :: rest =>
    obtain ⟨⟨hcw, _⟩, _⟩ := hwf
    rw [tokFlat_cons] at hc
    simp only [tokStr, List.cons_append, List.head?_cons, Option.some.injEq] at hc
    subst hc
    exact hcw

theorem flat_head_not_space {ts : List Tok} (hwf : TokWF ts)
    (hh : isSpaceTokHead ts = false) :
    ∀ c, (tokFlat ts).head? = some c → isSpacePy c = false := by
  intro c hc
  match ts with
  | [] => simp [tokFlat] at hc
  | .space s :: rest => simp [isSpaceTokHead] at hh
  | .word w :: rest =>
    obtain ⟨⟨hne, hall⟩, _, _⟩ := hwf
    rw [tokFlat_cons] at hc
    cases w with
    | nil => exact absurd rfl hne
    | cons c0 w2 =>
      simp only [tokStr, List.cons_append, List.head?_cons, Option.some.injEq] at hc
      subst hc
      have : isWordChar c0 = true := by
        simp only [List.all_cons, Bool.and_eq_true] at hall
        exact hall.1
      exact word_not_space this
  | .other c0 :: rest =>
    obtain ⟨⟨_, hcs⟩, _⟩ := hwf
    rw [tokFlat_cons] at hc
    simp only [tokStr, List.cons_append, List.head?_cons, Option.some.injEq] at hc
    subst hc
    exact hcs

theorem headIsWord_of_forall {l : Str}
    (h : ∀ c, l.head? = some c → isWordChar c = false) :
    headIsWord l = false := by
  cases l with
  | nil => rfl
  | cons c t => exact h c rfl

/-! ### Tokenizer correctness -/

theorem tokenizeF_head_word : ∀ (fuel : Nat) (l : Str),
    isWordTokHead (tokenizeF fuel l) = true → headIsWord l = true := by
  intro fuel l h
  match fuel, l with
  | 0, _ => simp [tokenizeF, isWordTokHead] at h
  | _ + 1, [] => simp [tokenizeF, isWordTokHead] at h
  | fuel + 1, c :: r =>
    by_cases hw : isWordChar c = true
    · exact hw
    · rw [show headIsWord (c :: r) = isWordChar c from rfl]
      by_cases hs : isSpacePy c = true
      · simp [tokenizeF, hw, hs, isWordTokHead] at h
      · simp [tokenizeF, hw, hs, isWordTokHead] at h

theorem tokenizeF_head_space : ∀ (fuel : Nat) (l : Str),
    isSpaceTokHead (tokenizeF fuel l) = true →
      ∃ c, l.head? = some c ∧ isSpacePy c = true := by
  intro fuel l h
  match fuel, l with
  | 0, _ => simp [tokenizeF, isSpaceTokHead] at h
  | _ + 1, [] => simp [tokenizeF, isSpaceTokHead] at h
  | fuel + 1, c :: r =>
    by_cases hw : isWordChar c = true
    · simp [tokenizeF, hw, isSpaceTokHead] at h
    · by_cases hs : isSpacePy c = true
      · exact ⟨c, rfl, hs⟩
      · simp [tokenizeF, hw, hs, isSpaceTokHead] at h

theorem tokenizeF_spec : ∀ (fuel : Nat) (s : Str), s.length ≤ fuel →
    tokFlat (tokenizeF fuel s) = s ∧ TokWF (tokenizeF fuel s) := by
  intro fuel
  induction fuel with
  | zero =>
    intro s hs
    have : s = [] := List.length_eq_zero.mp (Nat.le_zero.mp hs)
    subst this
    exact ⟨rfl, trivial⟩
  | succ fuel ih =>
    intro s hs
    match s with
    | [] => exact ⟨rfl, trivial⟩
    | c :: r =>
      simp only [List.length_cons] at hs
      by_cases hw : isWordChar c = true
      · have hlen : (r.dropWhile isWordChar).length ≤ fuel := by
          have := length_dropWhile_le isWordChar r
          omega
        have ihr := ih (r.dropWhile isWordChar) hlen
        have hflat : tokFlat (tokenizeF (fuel + 1) (c :: r))
            = (c :: r.takeWhile isWordChar) ++ tokFlat (tokenizeF fuel (r.dropWhile isWordChar)) := by
          simp [tokenizeF, hw, tokFlat_cons, tokStr]
        constructor
        · rw [hflat, ihr.1]
          simp [List.takeWhile_append_dropWhile]
        · have hhead : isWordTokHead (tokenizeF fuel (r.dropWhile isWordChar)) = false := by
            cases hq : isWordTokHead (tokenizeF fuel (r.dropWhile isWordChar))
            · rfl
            · have := tokenizeF_head_word fuel (r.dropWhile isWordChar) hq
              cases hd : r.dropWhile isWordChar with
              | nil => rw [hd] at this; simp [headIsWord] at this
              | cons d ds =>
                rw [hd] at this
                have hdd : isWordChar d = false :=
                  dropWhile_head_false r d (by rw [hd]; rfl)
                rw [show headIsWord (d :: ds) = isWordChar d from rfl, hdd] at this
                exact absurd this (by simp)
          simp only [tokenizeF, if_pos hw]
          exact ⟨⟨by simp, by simp [hw, takeWhile_all_self]⟩, hhead, ihr.2⟩
      · by_cases hsp : isSpacePy c = true
        · have hlen : (r.dropWhile isSpacePy).length ≤ fuel := by
            have := length_dropWhile_le isSpacePy r
            omega
          have ihr := ih (r.dropWhile isSpacePy) hlen
          have hflat : tokFlat (tokenizeF (fuel + 1) (c :: r))
              = (c :: r.takeWhile isSpacePy) ++ tokFlat (tokenizeF fuel (r.dropWhile isSpacePy)) := by
            simp [tokenizeF, hw, hsp, tokFlat_cons, tokStr]
          constructor
          · rw [hflat, ihr.1]
            simp [List.takeWhile_append_dropWhile]
          · have hhead : isSpaceTokHead (tokenizeF fuel (r.dropWhile isSpacePy)) = false := by
              cases hq : isSpaceTokHead (tokenizeF fuel (r.dropWhile isSpacePy))
              · rfl
              · obtain ⟨d, hd, hds⟩ := tokenizeF_head_space fuel (r.dropWhile isSpacePy) hq
                have hdd : isSpacePy d = false := dropWhile_head_false r d hd
                rw [hds] at hdd
                exact absurd hdd (by simp)
            simp only [tokenizeF, if_neg hw, if_pos hsp]
            exact ⟨⟨by simp, by simp [hsp, takeWhile_all_self]⟩, hhead, ihr.2⟩
        · have hlen : r.length ≤ fuel := by omega
          have ihr := ih r hlen
          have hflat : tokFlat (tokenizeF (fuel + 1) (c :: r))
              = [c] ++ tokFlat (tokenizeF fuel r) := by
            simp [tokenizeF, hw, hsp, tokFlat_cons, tokStr]
          constructor
          · rw [hflat, ihr.1]
            rfl
          · simp only [tokenizeF, if_neg hw, if_neg hsp]
            exact ⟨⟨Bool.eq_false_iff.mpr hw, Bool.eq_false_iff.mpr hsp⟩, ihr.2⟩

theorem tokenize_flat (s : Str) : tokFlat (tokenize s) = s :=
  (tokenizeF_spec s.length s (Nat.le_refl _)).1

theorem tokenize_wf (s : Str) : TokWF (tokenize s) :=
  (tokenizeF_spec s.length s (Nat.le_refl _)).2

/-! ### The repetition chain, token level vs character level -/

/-- Result of walking a `(whitespace, capitalized-word)*` chain over tokens:
the exact repetitions, the tokens after the chain, and — when the chain
stopped inside a word run — the partial word `(space, cap prefix, leftover)`. -/
structure RepsRes where
  reps : List (Str × Str)
  rem : List Tok
  part : Option (Str × Str × Str)

def repsT : List Tok → RepsRes
  | .space s :: .word w :: rest =>
    match parseWordN w with
    | none => ⟨[], .space s :: .word w :: rest, none⟩
    | some (wp, lo) =>
      if lo = [] then
        let pr := repsT rest
        ⟨(s, wp) :: pr.reps, pr.rem, pr.part⟩
      else ⟨[], rest, some (s, wp, lo)⟩
  | ts => ⟨[], ts, none⟩

/-- The repetition list as `parseReps` returns it (a partial word
contributes its parsed prefix as a final repetition). -/
def partReps : Option (Str × Str × Str) → List (Str × Str)
  | none => []
  | some (s, wp, _) => [(s, wp)]

/-- The character remainder after `parseReps`. -/
def partRem : Option (Str × Str × Str) → List Tok → Str
  | none, rem => tokFlat rem
  | some (_, _, lo), rem => lo ++ tokFlat rem

/-- The token remainder as the scanner resumes on it (a partial word's
space and full word are put back). -/
def partToks : Option (Str × Str × Str) → List Tok → List Tok
  | none, rem => rem
  | some (s, wp, lo), rem => .space s :: .word (wp ++ lo) :: rem

theorem parseReps_zero (l : Str) : parseReps 0 l = ([], l) := rfl

theorem parseReps_succ (fuel : Nat) (l : Str) :
    parseReps (fuel + 1) l =
      match parseWsN l with
      | none => ([], l)
      | some (ws, r1) =>
        match parseWordN r1 with
        | none => ([], l)
        | some (w, r2) =>
          ((ws, w) :: (parseReps fuel r2).1, (parseReps fuel r2).2) := rfl

theorem parseReps_stop_ws {l : Str} (h : parseWsN l = none) :
    ∀ fuel, parseReps fuel l = ([], l) := by
  intro fuel
  cases fuel with
  | zero => rfl
  | succ f => rw [parseReps_succ, h]

theorem parseReps_stop_word {l s r : Str} (h1 : parseWsN l = some (s, r))
    (h2 : parseWordN r = none) :
    ∀ fuel, parseReps fuel l = ([], l) := by
  intro fuel
  cases fuel with
  | zero => rfl
  | succ f => rw [parseReps_succ, h1]; simp only [h2]

theorem parseReps_step {l s r1 w r2 : Str} (h1 : parseWsN l = some (s, r1))
    (h2 : parseWordN r1 = some (w, r2)) (fuel : Nat) :
    parseReps (fuel + 1) l = ((s, w) :: (parseReps fuel r2).1, (parseReps fuel r2).2) := by
  rw [parseReps_succ, h1]
  simp only [h2]

/-- The six facts relating `repsT` to `parseReps` and `collectPairs` on a
well-formed, non-word-headed token list. -/
def RepsOK (ts : List Tok) : Prop :=
  (∀ fuel, (tokFlat ts).length ≤ fuel →
    parseReps fuel (tokFlat ts)
      = ((repsT ts).reps ++ partReps (repsT ts).part,
         partRem (repsT ts).part (repsT ts).rem))
  ∧ collectPairs ts = ((repsT ts).reps, partToks (repsT ts).part (repsT ts).rem)
  ∧ TokWF (partToks (repsT ts).part (repsT ts).rem)
  ∧ isWordTokHead (partToks (repsT ts).part (repsT ts).rem) = false
  ∧ (∀ p ∈ (repsT ts).reps, p.1 ≠ [] ∧ p.1.all isSpacePy = true ∧ capWord p.2 = true)
  ∧ 2 * (repsT ts).reps.length + (if (repsT ts).part.isSome then 2 else 0)
      + (repsT ts).rem.length = ts.length
  ∧ (∀ sk wpk lok, (repsT ts).part = some (sk, wpk, lok) → lok ≠ [])

theorem repsT_base_conj {ts : List Tok} (hwf : TokWF ts) (hh : isWordTokHead ts = false)
    (he : repsT ts = ⟨[], ts, none⟩)
    (hp : ∀ fuel, parseReps fuel (tokFlat ts) = ([], tokFlat ts))
    (hc : collectPairs ts = ([], ts)) :
    RepsOK ts := by
  unfold RepsOK
  rw [he]
  dsimp only [partReps, partRem, partToks]
  refine ⟨fun fuel _ => by rw [hp fuel]; simp, by rw [hc], hwf, hh, by simp, by simp,
    fun sk wpk lok hq => Option.noConfusion hq⟩

theorem repsT_spec : ∀ (n : Nat) (ts : List Tok), ts.length ≤ n → TokWF ts →
    isWordTokHead ts = false → RepsOK ts := by
  intro n
  induction n with
  | zero =>
    intro ts hlen hwf hh
    have h0 : ts = [] := List.length_eq_zero.mp (Nat.le_zero.mp hlen)
    subst h0
    exact repsT_base_conj hwf hh rfl
      (fun fuel => parseReps_stop_ws (parseWsN_none (by intro c hc; simp [tokFlat] at hc)) fuel)
      rfl
  | succ n ih =>
    intro ts hlen hwf hh
    cases ts with
    | nil =>
      exact repsT_base_conj hwf hh rfl
        (fun fuel => parseReps_stop_ws (parseWsN_none (by intro c hc; simp [tokFlat] at hc)) fuel)
        rfl
    | cons t0 ts1 =>
      cases t0 with
      | word w => exact absurd hh (by simp [isWordTokHead])
      | other c =>
        obtain ⟨⟨hcw, hcs⟩, hwfr⟩ := hwf
        refine repsT_base_conj ⟨⟨hcw, hcs⟩, hwfr⟩ hh rfl (fun fuel => ?_) rfl
        refine parseReps_stop_ws (parseWsN_none ?_) fuel
        intro d hd
        rw [tokFlat_cons] at hd
        simp only [tokStr, List.cons_append, List.head?_cons, Option.some.injEq] at hd
        subst hd
        exact hcs
      | space s =>
        obtain ⟨⟨hsne, hsall⟩, hnsp, hwf1⟩ := hwf
        cases ts1 with
        | nil =>
          refine repsT_base_conj ⟨⟨hsne, hsall⟩, hnsp, hwf1⟩ hh rfl (fun fuel => ?_) rfl
          have hws : parseWsN (tokFlat [Tok.space s]) = some (s, []) := by
            have : tokFlat [Tok.space s] = s ++ ([] : Str) := by
              simp [tokFlat, tokStr]
            rw [this]
            exact parseWsN_tok hsall hsne (by intro c hc; simp at hc)
          have : tokFlat [Tok.space s] = s ++ ([] : Str) := by simp [tokFlat, tokStr]
          rw [this] at hws ⊢
          have hwd : parseWordN ([] : Str) = none := rfl
          have := parseReps_stop_word hws hwd fuel
          simpa using this
        | cons t1 rest =>
          cases t1 with
          | space s2 => exact absurd hnsp (by simp [isSpaceTokHead])
          | other c =>
            obtain ⟨⟨hcw, hcs⟩, hwfr⟩ := hwf1
            refine repsT_base_conj ⟨⟨hsne, hsall⟩, hnsp, ⟨hcw, hcs⟩, hwfr⟩ hh rfl
              (fun fuel => ?_) rfl
            have hfl : tokFlat (Tok.space s :: Tok.other c :: rest)
                = s ++ (c :: tokFlat rest) := by
              simp [tokFlat_cons, tokStr]
            rw [hfl]
            have hws : parseWsN (s ++ (c :: tokFlat rest)) = some (s, c :: tokFlat rest) :=
              parseWsN_tok hsall hsne (by
                intro d hd
                simp only [List.head?_cons, Option.some.injEq] at hd
                subst hd
                exact hcs)
            have hwd : parseWordN (c :: tokFlat rest) = none := by
              rw [parseWordN_cons, if_neg]
              simp [not_word_not_upper hcw]
            exact parseReps_stop_word hws hwd fuel
          | word w =>
            obtain ⟨⟨hwne, hwall⟩, hnw, hwfr⟩ := hwf1
            have hlen2 : rest.length ≤ n := by
              simp only [List.length_cons] at hlen
              omega
            have hfl : tokFlat (Tok.space s :: Tok.word w :: rest)
                = s ++ (w ++ tokFlat rest) := by
              simp [tokFlat_cons, tokStr]
            have hfr_nw : headIsWord (tokFlat rest) = false :=
              headIsWord_of_forall (flat_head_not_word hwfr hnw)
            have hws : parseWsN (s ++ (w ++ tokFlat rest)) = some (s, w ++ tokFlat rest) := by
              refine parseWsN_tok hsall hsne ?_
              intro d hd
              cases w with
              | nil => exact absurd rfl hwne
              | cons c0 w2 =>
                simp only [List.cons_append, List.head?_cons, Option.some.injEq] at hd
                subst hd
                simp only [List.all_cons, Bool.and_eq_true] at hwall
                exact word_not_space hwall.1
            have hpw := parseWordN_ctx hwall hfr_nw
            have hwlen : 1 ≤ w.length := by
              cases w
              · exact absurd rfl hwne
              · simp
            have hslen : 1 ≤ s.length := by
              cases s
              · exact absurd rfl hsne
              · simp
            cases hpwn : parseWordN w with
            | none =>
              refine repsT_base_conj ⟨⟨hsne, hsall⟩, hnsp, ⟨hwne, hwall⟩, hnw, hwfr⟩ hh
                (by simp [repsT, hpwn]) (fun fuel => ?_) ?_
              · rw [hfl]
                refine parseReps_stop_word hws ?_ fuel
                rw [hpw, hpwn]
                rfl
              · simp [collectPairs, parseWordN_none_cap hpwn]
            | some pr =>
              obtain ⟨wp, lo⟩ := pr
              by_cases hlo : lo = []
              · -- exact capitalized word: chain continues
                subst hlo
                obtain ⟨hwpw, hcap⟩ := parseWordN_exact hpwn
                subst hwpw
                obtain ⟨ih1, ih2, ih3, ih4, ih5, ih6, ih7⟩ := ih rest hlen2 hwfr hnw
                have he : repsT (Tok.space s :: Tok.word wp :: rest)
                    = ⟨(s, wp) :: (repsT rest).reps, (repsT rest).rem, (repsT rest).part⟩ := by
                  simp [repsT, hpwn]
                unfold RepsOK
                rw [he]
                dsimp only
                refine ⟨?_, ?_, ih3, ih4, ?_, ?_, ih7⟩
                · intro fuel hfuel
                  rw [hfl] at hfuel ⊢
                  have hflen : (s ++ (wp ++ tokFlat rest)).length
                      = s.length + wp.length + (tokFlat rest).length := by
                    simp [List.length_append]
                    omega
                  cases fuel with
                  | zero =>
                    rw [hflen] at hfuel
                    omega
                  | succ f =>
                    have hpwc : parseWordN (wp ++ tokFlat rest) = some (wp, tokFlat rest) := by
                      rw [hpw, hpwn]
                      rfl
                    have hfr_len : (tokFlat rest).length ≤ f := by
                      rw [hflen] at hfuel
                      omega
                    rw [parseReps_step hws hpwc f, ih1 f hfr_len]
                    simp [List.cons_append]
                · simp only [collectPairs, if_pos hcap]
                  rw [ih2]
                · intro p hp
                  rcases List.mem_cons.mp hp with hp | hp
                  · subst hp
                    exact ⟨hsne, hsall, hcap⟩
                  · exact ih5 p hp
                · simp only [List.length_cons]
                  omega
              · -- partial word: chain stops inside this word run
                obtain ⟨hcapf, hwsplit, hlohead, hlochar⟩ :=
                  parseWordN_leftover hwall hpwn hlo
                have he : repsT (Tok.space s :: Tok.word w :: rest)
                    = ⟨[], rest, some (s, wp, lo)⟩ := by
                  simp [repsT, hpwn, hlo]
                unfold RepsOK
                rw [he]
                dsimp only [partReps, partRem, partToks]
                refine ⟨?_, ?_, ?_, rfl, by simp, ?_, ?_⟩
                · intro fuel hfuel
                  rw [hfl] at hfuel ⊢
                  have hflen : (s ++ (w ++ tokFlat rest)).length
                      = s.length + w.length + (tokFlat rest).length := by
                    simp [List.length_append]
                    omega
                  cases fuel with
                  | zero =>
                    rw [hflen] at hfuel
                    omega
                  | succ f =>
                    have hpwc : parseWordN (w ++ tokFlat rest)
                        = some (wp, lo ++ tokFlat rest) := by
                      rw [hpw, hpwn]
                      rfl
                    have hstop : parseReps f (lo ++ tokFlat rest) = ([], lo ++ tokFlat rest) := by
                      refine parseReps_stop_ws (parseWsN_none ?_) f
                      intro d hd
                      cases lo with
                      | nil => exact absurd rfl hlo
                      | cons c1 t1 =>
                        simp only [List.cons_append, List.head?_cons, Option.some.injEq] at hd
                        rw [← hd]
                        exact (hlochar c1 rfl).1
                    rw [parseReps_step hws hpwc f, hstop]
                    simp
                · have hcp : collectPairs (Tok.space s :: Tok.word w :: rest)
                      = ([], Tok.space s :: Tok.word w :: rest) := by
                    simp [collectPairs, hcapf]
                  rw [hcp, ← hwsplit]
                · rw [← hwsplit]
                  exact ⟨⟨hsne, hsall⟩, hnsp, ⟨hwne, hwall⟩, hnw, hwfr⟩
                · simp only [List.length_nil, List.length_cons, Option.isSome_some, if_true]
                  omega
                · intro sk wpk lok hq
                  simp only [Option.some.injEq, Prod.mk.injEq] at hq
                  rw [← hq.2.2]
                  exact hlo

/-! ### Scanner equations for the name pattern -/

theorem flatPairs_nil : flatPairs [] = [] := rfl

theorem flatPairs_cons (p : Str × Str) (ps : List (Str × Str)) :
    flatPairs (p :: ps) = p.1 ++ p.2 ++ flatPairs ps := by
  simp [flatPairs]

theorem flatPairs_append (a b : List (Str × Str)) :
    flatPairs (a ++ b) = flatPairs a ++ flatPairs b := by
  simp [flatPairs]

theorem parseWsN_eq {l ws r : Str} (h : parseWsN l = some (ws, r)) :
    ws ≠ [] ∧ ws ++ r = l := by
  simp only [parseWsN] at h
  by_cases he : l.takeWhile isSpacePy = []
  · rw [if_pos he] at h; exact absurd h (by simp)
  · rw [if_neg he] at h
    simp only [Option.some.injEq, Prod.mk.injEq] at h
    obtain ⟨rfl, rfl⟩ := h
    exact ⟨he, List.takeWhile_append_dropWhile (p := isSpacePy) (l := l)⟩

theorem parseReps_decomp : ∀ (fuel : Nat) (l : Str),
    flatPairs (parseReps fuel l).1 ++ (parseReps fuel l).2 = l := by
  intro fuel
  induction fuel with
  | zero => intro l; simp [parseReps_zero, flatPairs_nil]
  | succ f ih =>
    intro l
    cases hws : parseWsN l with
    | none => rw [parseReps_stop_ws hws]; simp [flatPairs_nil]
    | some p =>
      obtain ⟨ws, r1⟩ := p
      cases hpw : parseWordN r1 with
      | none => rw [parseReps_stop_word hws hpw]; simp [flatPairs_nil]
      | some q =>
        obtain ⟨w, r2⟩ := q
        rw [parseReps_step hws hpw f]
        simp only [flatPairs_cons]
        have h1 := (parseWsN_eq hws).2
        have h2 := (parseWordN_eq hpw).2
        calc ws ++ w ++ flatPairs (parseReps f r2).1 ++ (parseReps f r2).2
            = ws ++ (w ++ (flatPairs (parseReps f r2).1 ++ (parseReps f r2).2)) := by
              simp [List.append_assoc]
          _ = ws ++ (w ++ r2) := by rw [ih r2]
          _ = ws ++ r1 := by rw [h2]
          _ = l := h1

theorem tryName_consumes {pw : Bool} {l m r : Str} (h : tryName pw l = some (m, r)) :
    m ≠ [] ∧ m ++ r = l := by
  simp only [tryName] at h
  cases pw with
  | true => simp at h
  | false =>
    simp only [Bool.false_eq_true, if_false] at h
    cases hpw : parseWordN l with
    | none => rw [hpw] at h; exact absurd h (by simp)
    | some p =>
      obtain ⟨w1, r1⟩ := p
      rw [hpw] at h
      simp only at h
      by_cases h1 : (parseReps r1.length r1).1 = []
      · rw [if_pos h1] at h; exact absurd h (by simp)
      · rw [if_neg h1] at h
        by_cases h2 : (!headIsWord (parseReps r1.length r1).2) = true
        · rw [if_pos h2] at h
          simp only [Option.some.injEq, Prod.mk.injEq] at h
          obtain ⟨rfl, rfl⟩ := h
          refine ⟨by simp [(parseWordN_eq hpw).1], ?_⟩
          rw [List.append_assoc, parseReps_decomp]
          exact (parseWordN_eq hpw).2
        · rw [if_neg h2] at h
          by_cases h3 : 2 ≤ (parseReps r1.length r1).1.length
          · rw [if_pos h3] at h
            cases hgl : (parseReps r1.length r1).1.getLast? with
            | none => rw [hgl] at h; exact absurd h (by simp)
            | some lastP =>
              rw [hgl] at h
              simp only [Option.some.injEq, Prod.mk.injEq] at h
              obtain ⟨rfl, rfl⟩ := h
              refine ⟨by simp [(parseWordN_eq hpw).1], ?_⟩
              have hsplit : (parseReps r1.length r1).1.dropLast ++ [lastP]
                  = (parseReps r1.length r1).1 := by
                have hne : (parseReps r1.length r1).1 ≠ [] := h1
                have := List.getLast?_eq_getLast (parseReps r1.length r1).1 hne
                rw [this] at hgl
                simp only [Option.some.injEq] at hgl
                rw [← hgl]
                exact List.dropLast_append_getLast hne
              calc w1 ++ flatPairs (parseReps r1.length r1).1.dropLast
                    ++ (lastP.1 ++ lastP.2 ++ (parseReps r1.length r1).2)
                  = w1 ++ ((flatPairs (parseReps r1.length r1).1.dropLast
                      ++ (lastP.1 ++ lastP.2)) ++ (parseReps r1.length r1).2) := by
                    simp [List.append_assoc]
                _ = w1 ++ (flatPairs ((parseReps r1.length r1).1.dropLast ++ [lastP])
                      ++ (parseReps r1.length r1).2) := by
                    rw [flatPairs_append]
                    simp [flatPairs_cons, flatPairs_nil, List.append_assoc]
                _ = w1 ++ (flatPairs (parseReps r1.length r1).1
                      ++ (parseReps r1.length r1).2) := by rw [hsplit]
                _ = w1 ++ r1 := by rw [parseReps_decomp]
                _ = l := (parseWordN_eq hpw).2
          · rw [if_neg h3] at h; exact absurd h (by simp)

theorem reScan_nil (tm : Bool → Str → Option (Str × Str)) (fuel : Nat) (pw : Bool) :
    reScan tm fuel pw [] = [] := by
  cases fuel <;> rfl

theorem reScan_succ (tm : Bool → Str → Option (Str × Str)) (fuel : Nat) (pw : Bool)
    (c : Char) (rest : Str) :
    reScan tm (fuel + 1) pw (c :: rest)
      = match tm pw (c :: rest) with
        | some (m, r) => m :: reScan tm fuel (lastIsWord m) r
        | none => reScan tm fuel (isWordChar c) rest := rfl

theorem reScan_tryName_fuel : ∀ (f1 f2 : Nat) (pw : Bool) (l : Str),
    l.length ≤ f1 → l.length ≤ f2 →
    reScan tryName f1 pw l = reScan tryName f2 pw l := by
  intro f1
  induction f1 with
  | zero =>
    intro f2 pw l h1 h2
    have : l = [] := List.length_eq_zero.mp (Nat.le_zero.mp h1)
    subst this
    rw [reScan_nil, reScan_nil]
  | succ f ih =>
    intro f2 pw l h1 h2
    cases l with
    | nil => rw [reScan_nil, reScan_nil]
    | cons c rest =>
      cases f2 with
      | zero => simp at h2
      | succ f2' =>
        rw [reScan_succ, reScan_succ]
        cases htm : tryName pw (c :: rest) with
        | none =>
          simp only
          exact ih f2' (isWordChar c) rest (by simp at h1; omega) (by simp at h2; omega)
        | some p =>
          obtain ⟨m, r⟩ := p
          simp only
          obtain ⟨hmne, hmr⟩ := tryName_consumes htm
          have hrlen : r.length + 1 ≤ (c :: rest).length := by
            rw [← hmr]
            simp only [List.length_append]
            cases m
            · exact absurd rfl hmne
            · simp only [List.length_cons]
              omega
          simp only [List.length_cons] at h1 h2 hrlen
          rw [ih f2' (lastIsWord m) r (by omega) (by omega)]

/-- The scanner with canonical fuel (`findAll`'s choice). -/
def scanN (pw : Bool) (l : Str) : List Str := reScan tryName l.length pw l

theorem scanN_match {pw : Bool} {c : Char} {r m rest : Str}
    (h : tryName pw (c :: r) = some (m, rest)) :
    scanN pw (c :: r) = m :: scanN (lastIsWord m) rest := by
  show reScan tryName (r.length + 1) pw (c :: r) = _
  rw [reScan_succ]
  simp only [h]
  obtain ⟨hmne, hmr⟩ := tryName_consumes h
  have hrlen : rest.length ≤ r.length := by
    have : m.length + rest.length = r.length + 1 := by
      rw [← List.length_append, hmr]
      simp
    cases m
    · exact absurd rfl hmne
    · simp only [List.length_cons] at this
      omega
  rw [reScan_tryName_fuel r.length rest.length (lastIsWord m) rest hrlen (Nat.le_refl _)]
  rfl

theorem scanN_skip {pw : Bool} {c : Char} {r : Str}
    (h : tryName pw (c :: r) = none) :
    scanN pw (c :: r) = scanN (isWordChar c) r := by
  show reScan tryName (r.length + 1) pw (c :: r) = _
  rw [reScan_succ]
  simp only [h]
  rfl

theorem tryName_true (l : Str) : tryName true l = none := rfl

theorem tryName_not_upper {pw : Bool} {c : Char} {r : Str} (h : isUpperA c = false) :
    tryName pw (c :: r) = none := by
  cases pw with
  | true => exact tryName_true _
  | false =>
    simp only [tryName, Bool.false_eq_true, if_false]
    rw [parseWordN_cons, if_neg (by simp [h])]

theorem scan_run_tail {r : Str} : ∀ (w : Str), w.all isWordChar = true →
    scanN true (w ++ r) = scanN true r := by
  intro w
  induction w with
  | nil => intro _; rfl
  | cons c w2 ih =>
    intro hall
    simp only [List.all_cons, Bool.and_eq_true] at hall
    rw [List.cons_append, scanN_skip (tryName_true _), hall.1]
    exact ih hall.2

theorem scan_nonword_prefix {r : Str} : ∀ (s : Str),
    (∀ c ∈ s, isWordChar c = false) → s ≠ [] → ∀ (pw : Bool),
    scanN pw (s ++ r) = scanN false r := by
  intro s
  induction s with
  | nil => intro _ h; exact absurd rfl h
  | cons c s2 ih =>
    intro hs _ pw
    have hcnw : isWordChar c = false := hs c (List.mem_cons_self c s2)
    rw [List.cons_append,
      scanN_skip (tryName_not_upper (not_word_not_upper hcnw)), hcnw]
    by_cases hs2 : s2 = []
    · subst hs2; rfl
    · exact ih (fun d hd => hs d (List.mem_cons_of_mem c hd)) hs2 false

theorem scan_skip_word_run {w r : Str} (hwne : w ≠ []) (hw : w.all isWordChar = true)
    (hnone : tryName false (w ++ r) = none) :
    scanN false (w ++ r) = scanN true r := by
  cases w with
  | nil => exact absurd rfl hwne
  | cons c w2 =>
    simp only [List.all_cons, Bool.and_eq_true] at hw
    rw [List.cons_append] at hnone ⊢
    rw [scanN_skip hnone, hw.1]
    exact scan_run_tail w2 hw.2

theorem scanN_match_ne {pw : Bool} {l m rest : Str} (hl : l ≠ [])
    (h : tryName pw l = some (m, rest)) :
    scanN pw l = m :: scanN (lastIsWord m) rest := by
  cases l with
  | nil => exact absurd rfl hl
  | cons c r => exact scanN_match h

/-! ### Last-character facts for matched spans -/

theorem capWord_all_word {w : Str} (h : capWord w = true) :
    w.all isWordChar = true := by
  cases w with
  | nil => simp [capWord] at h
  | cons c t =>
    simp only [capWord, Bool.and_eq_true, Bool.not_eq_true'] at h
    obtain ⟨⟨hc, _⟩, hall⟩ := h
    simp only [List.all_cons, Bool.and_eq_true]
    refine ⟨upper_is_word hc, ?_⟩
    rw [List.all_eq_true] at hall ⊢
    exact fun x hx => lower_is_word (hall x hx)

theorem capWord_ne_nil {w : Str} (h : capWord w = true) : w ≠ [] := by
  cases w with
  | nil => simp [capWord] at h
  | cons c t => simp

theorem capWord_last {w : Str} (h : capWord w = true) : lastIsWord w = true := by
  have hne : w ≠ [] := capWord_ne_nil h
  have hgl := List.getLast?_eq_getLast w hne
  simp only [lastIsWord, hgl]
  exact List.all_eq_true.mp (capWord_all_word h) _ (List.getLast_mem hne)

theorem lastIsWord_append {a b : Str} (hb : b ≠ []) :
    lastIsWord (a ++ b) = lastIsWord b := by
  simp only [lastIsWord]
  rw [List.getLast?_append_of_ne_nil a hb]

theorem lastIsWord_cap_chain : ∀ (ps : List (Str × Str)) (a : Str),
    (ps = [] → lastIsWord a = true) →
    (∀ p ∈ ps, capWord p.2 = true) →
    lastIsWord (a ++ flatPairs ps) = true := by
  intro ps
  induction ps with
  | nil =>
    intro a h1 _
    rw [flatPairs_nil, List.append_nil]
    exact h1 rfl
  | cons p ps2 ih =>
    intro a _ h2
    have hcap : capWord p.2 = true := (h2 p (List.mem_cons_self p ps2)).symm ▸
      h2 p (List.mem_cons_self p ps2)
    have := ih (a ++ (p.1 ++ p.2))
      (fun _ => by
        rw [← List.append_assoc, lastIsWord_append (capWord_ne_nil hcap)]
        exact capWord_last hcap)
      (fun q hq => h2 q (List.mem_cons_of_mem p hq))
    rw [flatPairs_cons]
    calc lastIsWord (a ++ (p.1 ++ p.2 ++ flatPairs ps2))
        = lastIsWord (a ++ (p.1 ++ p.2) ++ flatPairs ps2) := by
          simp [List.append_assoc]
      _ = true := this

/-! ### spansTok unfolding equations -/

theorem spansTok_nil : spansTok [] = [] := by
  simp [spansTok]

theorem spansTok_space (s : Str) (rest : List Tok) :
    spansTok (.space s :: rest) = spansTok rest := by
  simp [spansTok]

theorem spansTok_other (c : Char) (rest : List Tok) :
    spansTok (.other c :: rest) = spansTok rest := by
  simp [spansTok]

theorem spansTok_word_nocap {w : Str} {rest : List Tok} (h : capWord w = false) :
    spansTok (.word w :: rest) = spansTok rest := by
  rw [spansTok]
  simp [h]

theorem spansTok_word_cap_nil {w : Str} {rest : List Tok} (h : capWord w = true)
    (h2 : (collectPairs rest).1 = []) :
    spansTok (.word w :: rest) = spansTok rest := by
  rw [spansTok]
  simp [h, h2]

theorem spansTok_word_cap_cons {w : Str} {rest : List Tok} (h : capWord w = true)
    (h2 : (collectPairs rest).1 ≠ []) :
    spansTok (.word w :: rest)
      = (w ++ flatPairs (collectPairs rest).1) :: spansTok (collectPairs rest).2 := by
  rw [spansTok]
  simp [h, h2]

/-! ### The scanner agrees with the token-level span extraction -/

theorem scan_spans : ∀ (n : Nat) (ts : List Tok), ts.length ≤ n → TokWF ts →
    ∀ pw : Bool, (isWordTokHead ts = true → pw = false) →
    scanN pw (tokFlat ts) = spansTok ts := by
  intro n
  induction n with
  | zero =>
    intro ts hlen hwf pw hpw
    have h0 : ts = [] := List.length_eq_zero.mp (Nat.le_zero.mp hlen)
    subst h0
    rw [spansTok_nil]
    rfl
  | succ n ih =>
    intro ts hlen hwf pw hpw
    cases ts with
    | nil =>
      rw [spansTok_nil]
      rfl
    | cons t0 rest =>
      have hlenr : rest.length ≤ n := by
        simp only [List.length_cons] at hlen
        omega
      cases t0 with
      | other c =>
        obtain ⟨⟨hcw, hcs⟩, hwfr⟩ := hwf
        have hfl : tokFlat (Tok.other c :: rest) = c :: tokFlat rest := by
          simp [tokFlat_cons, tokStr]
        rw [hfl, scanN_skip (tryName_not_upper (not_word_not_upper hcw)), hcw,
          spansTok_other]
        exact ih rest hlenr hwfr false (fun _ => rfl)
      | space s =>
        obtain ⟨⟨hsne, hsall⟩, hnsp, hwfr⟩ := hwf
        have hfl : tokFlat (Tok.space s :: rest) = s ++ tokFlat rest := by
          simp [tokFlat_cons, tokStr]
        rw [hfl,
          scan_nonword_prefix s
            (fun c hc => space_not_word (List.all_eq_true.mp hsall c hc)) hsne pw,
          spansTok_space]
        exact ih rest hlenr hwfr false (fun _ => rfl)
      | word w =>
        obtain ⟨⟨hwne, hwall⟩, hnw, hwfr⟩ := hwf
        have hpw0 : pw = false := hpw rfl
        subst hpw0
        have hfl : tokFlat (Tok.word w :: rest) = w ++ tokFlat rest := by
          simp [tokFlat_cons, tokStr]
        rw [hfl]
        have hfr_nw : headIsWord (tokFlat rest) = false :=
          headIsWord_of_forall (flat_head_not_word hwfr hnw)
        have hctx := parseWordN_ctx hwall hfr_nw
        have ihrest_hyp : isWordTokHead rest = true → (true : Bool) = false := by
          intro hq
          rw [hnw] at hq
          exact absurd hq (by simp)
        cases hpwn : parseWordN w with
        | none =>
          have htn : tryName false (w ++ tokFlat rest) = none := by
            simp only [tryName, Bool.false_eq_true, if_false]
            rw [hctx, hpwn]
            rfl
          rw [scan_skip_word_run hwne hwall htn,
            spansTok_word_nocap (parseWordN_none_cap hpwn)]
          exact ih rest hlenr hwfr true ihrest_hyp
        | some p =>
          obtain ⟨wp, lo⟩ := p
          by_cases hlo : lo = []
          · -- the word run is exactly a capitalized word
            subst hlo
            obtain ⟨hwpw, hcap⟩ := parseWordN_exact hpwn
            subst hwpw
            obtain ⟨r1f, r2f, r3f, r4f, r5f, r6f, r7f⟩ :=
              repsT_spec rest.length rest (Nat.le_refl _) hwfr hnw
            have hpr := r1f (tokFlat rest).length (Nat.le_refl _)
            have hpwc : parseWordN (wp ++ tokFlat rest) = some (wp, tokFlat rest) := by
              rw [hctx, hpwn]
              rfl
            cases hpart : (repsT rest).part with
            | none =>
              rw [hpart] at hpr r2f r3f r4f r6f
              simp only [partReps, partRem, partToks, List.append_nil] at hpr r2f r3f r4f
              by_cases hA : (repsT rest).reps = []
              · have htn : tryName false (wp ++ tokFlat rest) = none := by
                  simp only [tryName, Bool.false_eq_true, if_false]
                  rw [hpwc]
                  simp [hpr, hA]
                rw [scan_skip_word_run hwne hwall htn,
                  spansTok_word_cap_nil hcap (by rw [r2f]; simpa using hA)]
                exact ih rest hlenr hwfr true ihrest_hyp
              · have hflrm_nw : headIsWord (tokFlat (repsT rest).rem) = false :=
                  headIsWord_of_forall (flat_head_not_word r3f r4f)
                have htn : tryName false (wp ++ tokFlat rest)
                    = some (wp ++ flatPairs (repsT rest).reps,
                            tokFlat (repsT rest).rem) := by
                  simp only [tryName, Bool.false_eq_true, if_false]
                  rw [hpwc]
                  simp [hpr, hA, hflrm_nw]
                rw [scanN_match_ne (by simp [hwne]) htn]
                have hlast : lastIsWord (wp ++ flatPairs (repsT rest).reps) = true :=
                  lastIsWord_cap_chain _ _ (fun _ => capWord_last hcap)
                    (fun p hp => (r5f p hp).2.2)
                rw [hlast]
                have hrm_len : (repsT rest).rem.length ≤ n := by
                  simp only [Option.isSome_none, Bool.false_eq_true, if_false] at r6f
                  omega
                rw [ih (repsT rest).rem hrm_len r3f true
                  (fun hq => by rw [r4f] at hq; exact absurd hq (by simp))]
                rw [spansTok_word_cap_cons hcap (by rw [r2f]; simpa using hA), r2f]
            | some pp =>
              obtain ⟨sk, wpk, lok⟩ := pp
              have hlokne : lok ≠ [] := r7f sk wpk lok hpart
              rw [hpart] at hpr r2f r3f r4f r6f
              simp only [partReps, partRem, partToks] at hpr r2f r3f r4f
              have hlok_word : headIsWord (lok ++ tokFlat (repsT rest).rem) = true := by
                obtain ⟨⟨_, _⟩, _, ⟨_, hwall2⟩, _, _⟩ := r3f
                cases lok with
                | nil => exact absurd rfl hlokne
                | cons c1 t1 =>
                  have hc1 : isWordChar c1 = true := by
                    rw [List.all_eq_true] at hwall2
                    exact hwall2 c1 (List.mem_append.mpr
                      (Or.inr (List.mem_cons_self c1 t1)))
                  simp only [List.cons_append]
                  exact hc1
              by_cases hA : (repsT rest).reps = []
              · have htn : tryName false (wp ++ tokFlat rest) = none := by
                  simp only [tryName, Bool.false_eq_true, if_false]
                  rw [hpwc]
                  simp [hpr, hA, hlok_word]
                rw [scan_skip_word_run hwne hwall htn,
                  spansTok_word_cap_nil hcap (by rw [r2f]; simpa using hA)]
                exact ih rest hlenr hwfr true ihrest_hyp
              · have hA1 : 1 ≤ (repsT rest).reps.length := by
                  cases hq : (repsT rest).reps with
                  | nil => exact absurd hq hA
                  | cons q qs => simp
                have hget : ((repsT rest).reps ++ [(sk, wpk)]).getLast? = some (sk, wpk) :=
                  List.getLast?_concat _
                have hdrop : ((repsT rest).reps ++ [(sk, wpk)]).dropLast
                    = (repsT rest).reps := by
                  simp
                have h2le : 2 ≤ ((repsT rest).reps ++ [(sk, wpk)]).length := by
                  simp only [List.length_append, List.length_cons, List.length_nil]
                  omega
                have htn : tryName false (wp ++ tokFlat rest)
                    = some (wp ++ flatPairs (repsT rest).reps,
                            sk ++ wpk ++ (lok ++ tokFlat (repsT rest).rem)) := by
                  simp only [tryName, Bool.false_eq_true, if_false]
                  rw [hpwc]
                  simp [hpr, hlok_word, hget, hdrop, h2le, hA]
                rw [scanN_match_ne (by simp [hwne]) htn]
                have hlast : lastIsWord (wp ++ flatPairs (repsT rest).reps) = true :=
                  lastIsWord_cap_chain _ _ (fun _ => capWord_last hcap)
                    (fun p hp => (r5f p hp).2.2)
                rw [hlast]
                have hres : sk ++ wpk ++ (lok ++ tokFlat (repsT rest).rem)
                    = tokFlat (Tok.space sk :: Tok.word (wpk ++ lok)
                        :: (repsT rest).rem) := by
                  simp [tokFlat_cons, tokStr, List.append_assoc]
                rw [hres]
                have hlen3 : (Tok.space sk :: Tok.word (wpk ++ lok)
                    :: (repsT rest).rem).length ≤ n := by
                  simp only [List.length_cons]
                  simp only [Option.isSome_some, if_true] at r6f
                  omega
                rw [ih _ hlen3 r3f true
                  (fun hq => by simp [isWordTokHead] at hq)]
                rw [spansTok_word_cap_cons hcap (by rw [r2f]; simpa using hA), r2f]
          · -- leftover in the first word run: no match starts here
            obtain ⟨hcapf, hwsplit, hlohead, hlochar⟩ := parseWordN_leftover hwall hpwn hlo
            have hpwc : parseWordN (w ++ tokFlat rest) = some (wp, lo ++ tokFlat rest) := by
              rw [hctx, hpwn]
              rfl
            have hreps : ∀ fuel, parseReps fuel (lo ++ tokFlat rest)
                = ([], lo ++ tokFlat rest) := by
              refine parseReps_stop_ws (parseWsN_none ?_)
              intro d hd
              cases lo with
              | nil => exact absurd rfl hlo
              | cons c1 t1 =>
                simp only [List.cons_append, List.head?_cons, Option.some.injEq] at hd
                rw [← hd]
                exact (hlochar c1 rfl).1
            have htn : tryName false (w ++ tokFlat rest) = none := by
              simp only [tryName, Bool.false_eq_true, if_false]
              rw [hpwc]
              simp [hreps]
            rw [scan_skip_word_run hwne hwall htn, spansTok_word_nocap hcapf]
            exact ih rest hlenr hwfr true ihrest_hyp

/-! ### Set conversion and span shape -/

theorem pySetGo_mem : ∀ (l seen : List Str) (s : Str),
    s ∈ pySetGo seen l ↔ s ∈ l ∧ s ∉ seen := by
  intro l
  induction l with
  | nil => intro seen s; simp [pySetGo]
  | cons x xs ih =>
    intro seen s
    by_cases hx : x ∈ seen
    · rw [pySetGo, if_pos hx, ih]
      constructor
      · rintro ⟨h1, h2⟩
        exact ⟨List.mem_cons_of_mem x h1, h2⟩
      · rintro ⟨h1, h2⟩
        rcases List.mem_cons.mp h1 with rfl | h1
        · exact absurd hx h2
        · exact ⟨h1, h2⟩
    · rw [pySetGo, if_neg hx]
      by_cases hsx : s = x
      · subst hsx
        simp [hx]
      · constructor
        · intro h
          rcases List.mem_cons.mp h with rfl | h
          · exact absurd rfl hsx
          · obtain ⟨h1, h2⟩ := (ih (x :: seen) s).mp h
            exact ⟨List.mem_cons_of_mem x h1,
              fun hq => h2 (List.mem_cons_of_mem x hq)⟩
        · rintro ⟨h1, h2⟩
          rcases List.mem_cons.mp h1 with rfl | h1
          · exact absurd rfl hsx
          · refine List.mem_cons_of_mem x ((ih (x :: seen) s).mpr ⟨h1, ?_⟩)
            intro hq
            rcases List.mem_cons.mp hq with rfl | hq
            · exact absurd rfl hsx
            · exact h2 hq

theorem pySetGo_nodup : ∀ (l seen : List Str), (pySetGo seen l).Nodup := by
  intro l
  induction l with
  | nil => intro seen; simp [pySetGo]
  | cons x xs ih =>
    intro seen
    by_cases hx : x ∈ seen
    · rw [pySetGo, if_pos hx]
      exact ih seen
    · rw [pySetGo, if_neg hx]
      refine List.nodup_cons.mpr ⟨?_, ih (x :: seen)⟩
      intro hq
      exact ((pySetGo_mem xs (x :: seen) x).mp hq).2 (List.mem_cons_self x seen)

theorem pySetList_mem (l : List Str) (s : Str) : s ∈ pySetList l ↔ s ∈ l := by
  rw [pySetList, pySetGo_mem]
  simp

theorem pySetList_nodup (l : List Str) : (pySetList l).Nodup :=
  pySetGo_nodup l []

theorem spansTok_shape : ∀ (n : Nat) (ts : List Tok), ts.length ≤ n → TokWF ts →
    ∀ sp ∈ spansTok ts, ∃ w ps, capWord w = true ∧ ps ≠ [] ∧
      (∀ p ∈ ps, p.1 ≠ [] ∧ p.1.all isSpacePy = true ∧ capWord p.2 = true) ∧
      sp = w ++ flatPairs ps := by
  intro n
  induction n with
  | zero =>
    intro ts hlen hwf sp hsp
    have h0 : ts = [] := List.length_eq_zero.mp (Nat.le_zero.mp hlen)
    subst h0
    rw [spansTok_nil] at hsp
    exact absurd hsp (by simp)
  | succ n ih =>
    intro ts hlen hwf sp hsp
    cases ts with
    | nil =>
      rw [spansTok_nil] at hsp
      exact absurd hsp (by simp)
    | cons t0 rest =>
      have hlenr : rest.length ≤ n := by
        simp only [List.length_cons] at hlen
        omega
      cases t0 with
      | other c =>
        rw [spansTok_other] at hsp
        exact ih rest hlenr hwf.2 sp hsp
      | space s =>
        rw [spansTok_space] at hsp
        exact ih rest hlenr hwf.2.2 sp hsp
      | word w =>
        obtain ⟨⟨hwne, hwall⟩, hnw, hwfr⟩ := hwf
        by_cases hcap : capWord w = true
        · obtain ⟨r1f, r2f, r3f, r4f, r5f, r6f, r7f⟩ :=
            repsT_spec rest.length rest (Nat.le_refl _) hwfr hnw
          have hc1 : (collectPairs rest).1 = (repsT rest).reps := by rw [r2f]
          have hc2 : (collectPairs rest).2
              = partToks (repsT rest).part (repsT rest).rem := by rw [r2f]
          by_cases hA : (collectPairs rest).1 = []
          · rw [spansTok_word_cap_nil hcap hA] at hsp
            exact ih rest hlenr hwfr sp hsp
          · rw [spansTok_word_cap_cons hcap hA] at hsp
            rcases List.mem_cons.mp hsp with rfl | hsp
            · refine ⟨w, (collectPairs rest).1, hcap, hA, ?_, rfl⟩
              intro p hp
              rw [hc1] at hp
              exact r5f p hp
            · have hplen : (partToks (repsT rest).part (repsT rest).rem).length
                  ≤ rest.length := by
                cases hpart : (repsT rest).part with
                | none =>
                  rw [hpart] at r6f
                  simp only [partToks]
                  simp only [Option.isSome_none, Bool.false_eq_true, if_false] at r6f
                  omega
                | some pp =>
                  obtain ⟨sk, wpk, lok⟩ := pp
                  rw [hpart] at r6f
                  simp only [partToks, List.length_cons]
                  simp only [Option.isSome_some, if_true] at r6f
                  omega
              rw [hc2] at hsp
              exact ih _ (Nat.le_trans hplen hlenr) r3f sp hsp
        · have hcapf : capWord w = false := Bool.eq_false_iff.mpr hcap
          rw [spansTok_word_nocap hcapf] at hsp
          exact ih rest hlenr hwfr sp hsp

/-! ### C6 assembly -/

/-- The claim-side name set: the spans of maximal chains of two or more
whitespace-separated capitalized words in the text, in scan order. -/
def namesSpec (text : Str) : List Str := spansTok (tokenize text)

theorem extract_eq_spans (text : Str) :
    findAll tryName text = namesSpec text := by
  show scanN false text = namesSpec text
  have h1 : scanN false text = scanN false (tokFlat (tokenize text)) := by
    rw [tokenize_flat]
  rw [h1]
  exact scan_spans (tokenize text).length (tokenize text) (Nat.le_refl _)
    (tokenize_wf text) false (fun _ => rfl)

/-- C6: for every input text, `_extract_person_names` returns exactly the
distinct maximal spans of two or more consecutive capitalized words (one
ASCII uppercase letter followed by one or more ASCII lowercase letters,
whitespace-separated): membership agrees with the claim-side token
extraction `namesSpec`, the result has no duplicates, every extracted
string is a capitalized word followed by one or more
(whitespace, capitalized word) pairs — so a single capitalized word is
never extracted — and the boundary example
"Sarah went to Paris to meet John." yields the empty set. -/
theorem C6_name_extraction (text : Str) :
    (∀ s, s ∈ extract_person_names text ↔ s ∈ namesSpec text) ∧
    (extract_person_names text).Nodup ∧
    (∀ s ∈ extract_person_names text, ∃ w ps, capWord w = true ∧ ps ≠ [] ∧
        (∀ p ∈ ps, p.1 ≠ [] ∧ p.1.all isSpacePy = true ∧ capWord p.2 = true) ∧
        s = w ++ flatPairs ps) ∧
    extract_person_names (cs "Sarah went to Paris to meet John.") = [] := by
  refine ⟨?_, ?_, ?_, ?_⟩
  · intro s
    rw [extract_person_names, pySetList_mem, extract_eq_spans]
  · exact pySetList_nodup _
  · intro s hs
    have hmem : s ∈ namesSpec text := by
      rw [extract_person_names, pySetList_mem, extract_eq_spans] at hs
      exact hs
    exact spansTok_shape (tokenize text).length (tokenize text) (Nat.le_refl _)
      (tokenize_wf text) s hmem
  · rfl

theorem C6_name_extraction_witness :
    extract_person_names (cs "Sarah went to Paris to meet John.") = []
      ∧ cs "John Doe" ∈ namesSpec (cs "met John Doe today") :=
  ⟨(C6_name_extraction (cs "met John Doe today")).2.2.2,
   ((C6_name_extraction (cs "met John Doe today")).1 (cs "John Doe")).mp (by decide)⟩

end CtxTool
